import Mathlib

/-!
Verification development for the `fico-xpress/python-notebooks` repository.

The repository is a collection of Jupyter notebooks that build optimization
models and hand them to the external Xpress solver.  The only self-contained
algorithmic content is the branch-and-bound-tree bookkeeping and layout code
of `basic_api_examples/callback_newnode.ipynb` (`storeBBnode`,
`postorder_count`, `setpos`); that code is embedded here ad verbatim as
possible, Python dictionaries becoming insertion-ordered association lists
and the two recursive functions becoming fuel-indexed recursions (Python
recursion on a cyclic mapping would not terminate, so the embedding returns
`none` when the fuel runs out, and `none` likewise models a `KeyError`).

The structural claims about the notebooks as scripts (ordering of model
construction, solver invocation and solution output; absence of error
handlers and of any thread creation) are settled over a deep embedding of
each notebook as a list of script steps, with an `Except`-valued runner.
-/

/-! ## Python dictionaries as insertion-ordered association lists -/

/-- A Python `dict` with `Nat` keys: an association list in insertion order,
each key bound at most once (maintained by `PyDict.set`). -/
abbrev PyDict (β : Type) : Type := List (Nat × β)

namespace PyDict

/-- `d[k]`, as an `Option`: `none` models a `KeyError`. -/
def get {β : Type} : PyDict β → Nat → Option β
  | [], _ => none
  | (k', v) :: rest, k => if k' = k then some v else get rest k

/-- `d[k] = v`: replace the binding of `k` in place if present, else append. -/
def set {β : Type} : PyDict β → Nat → β → PyDict β
  | [], k, v => [(k, v)]
  | (k', v') :: rest, k, v =>
      if k' = k then (k, v) :: rest else (k', v') :: set rest k v

/-- `len(d)`: with uniquely-bound keys the list length is the key count. -/
def size {β : Type} (d : PyDict β) : Nat := d.length

theorem get_set_same {β : Type} (d : PyDict β) (k : Nat) (v : β) :
    (d.set k v).get k = some v := by
  induction d with
  | nil => simp [get, set]
  | cons hd tl ih =>
      obtain ⟨k', v'⟩ := hd
      by_cases h : k' = k
      · simp [get, set, h]
      · simp [get, set, h, ih]

theorem get_set_other {β : Type} (d : PyDict β) (k k' : Nat) (v : β)
    (h : k' ≠ k) : (d.set k v).get k' = d.get k' := by
  have h' : k ≠ k' := Ne.symm h
  induction d with
  | nil => simp [get, set, h']
  | cons hd tl ih =>
      obtain ⟨k₀, v₀⟩ := hd
      by_cases h0 : k₀ = k
      · subst h0
        simp [get, set, h', Ne.symm h']
      · by_cases h1 : k₀ = k'
        · subst h1
          simp [get, set, h0]
        · simp [get, set, h0, h1, ih]

end PyDict

/-! ## The `networkx` graph and the notebook's program state -/

/-- The slice of a `networkx.Graph` used by `callback_newnode.ipynb`: the
`pos` attribute of each node and the list of edges in insertion order. -/
structure Graph where
  posOf : PyDict (ℚ × ℚ)
  edges : List (Nat × Nat)
  deriving DecidableEq

/-- `T.add_node(n, pos=p)` (re-adding a node overwrites its attribute). -/
def Graph.add_node (T : Graph) (n : Nat) (p : ℚ × ℚ) : Graph :=
  { T with posOf := T.posOf.set n p }

/-- `T.add_edge(a, b)`. -/
def Graph.add_edge (T : Graph) (a b : Nat) : Graph :=
  { T with edges := T.edges ++ [(a, b)] }

/-- The empty graph `nx.Graph()`. -/
def Graph.empty : Graph := ⟨[], []⟩

/-- The solver controls set by `callback_newnode.ipynb`. -/
structure SolverControls where
  maxnode : Int
  threads : Int
  deriving DecidableEq

/-- The external solver's problem object, opaque to the notebook: its
controls and an abstract token for the loaded model data. -/
structure Problem where
  controls : SolverControls
  model : Nat
  deriving DecidableEq

/-- The global state of `callback_newnode.ipynb`: the six bookkeeping
objects created before the solve, plus the problem object. -/
structure ProgState where
  T : Graph
  card_subtree : PyDict Nat
  pos : PyDict (ℚ × ℚ)
  left : PyDict Nat
  right : PyDict Nat
  nodes : PyDict Nat
  prob : Problem
  deriving DecidableEq

/-! ## `storeBBnode`: the newnode callback -/

/-- The callback of `callback_newnode.ipynb`:

```python
def storeBBnode(prob, Tree, parent, newnode, branch):
    nodes[newnode] = len(nodes) + 1
    if branch == 0:
        left[parent] = newnode
    else:
        right[parent] = newnode
```

The globals `nodes`, `left`, `right` live in the program state `s`; the
parameters `prob` and `Tree` are received but never used.  The returned
`Option Unit` is the Python return value (always `None`). -/
def storeBBnode (s : ProgState) (_prob : Problem) (_Tree : Graph)
    (parent newnode : Nat) (branch : Int) : ProgState × Option Unit :=
  let s1 := { s with nodes := s.nodes.set newnode (s.nodes.size + 1) }
  if branch = 0 then
    ({ s1 with left := s1.left.set parent newnode }, none)
  else
    ({ s1 with right := s1.right.set parent newnode }, none)

/-- A newnode event as reported by the solver: `(parent, newnode, branch)`. -/
abbrev BBEvent : Type := Nat × Nat × Int

/-- Run a sequence of newnode callback invocations, in order. -/
def runEvents (pr : Problem) (g : Graph) : List BBEvent → ProgState → ProgState
  | [], s => s
  | (p, c, b) :: rest, s => runEvents pr g rest (storeBBnode s pr g p c b).1

/-- The state set up by the notebook before `p.optimize()`:
`T = nx.Graph()`, `card_subtree = {}`, `pos = {}`, `left = {}`,
`right = {}`, `nodes = {1: 1}`, and the problem with
`maxnode = 10`, `threads = 1`. -/
def initState : ProgState :=
  { T := Graph.empty
    card_subtree := []
    pos := []
    left := []
    right := []
    nodes := [(1, 1)]
    prob := { controls := { maxnode := 10, threads := 1 }, model := 0 } }

example : ((storeBBnode initState initState.prob Graph.empty 1 2 0).1).left.get 1 = some 2 := by
  decide

example :
    (runEvents initState.prob Graph.empty [(1, 2, 0), (1, 3, 0)] initState).left.get 1 =
      some 3 := by
  decide

/-! ## `postorder_count` and `setpos` -/

/-- The recursive subtree counter of `callback_newnode.ipynb`:

```python
def postorder_count(node):
    card = 0
    if node in left.keys():
        postorder_count(left[node])
        card += card_subtree[left[node]]
    if node in right.keys():
        postorder_count(right[node])
        card += card_subtree[right[node]]
    card_subtree[node] = 1 + card
```

The globals `left` and `right` are parameters, the mutated global
`card_subtree` is threaded through.  The recursion is fuel-indexed:
`none` models nontermination (fuel exhausted) or a `KeyError`. -/
def postorder_count (left right : PyDict Nat) :
    Nat → Nat → PyDict Nat → Option (PyDict Nat)
  | 0, _, _ => none
  | fuel + 1, node, cs =>
      let afterLeft : Option (PyDict Nat × Nat) :=
        match left.get node with
        | some l =>
            match postorder_count left right fuel l cs with
            | some cs1 =>
                match cs1.get l with
                | some cl => some (cs1, cl)
                | none => none
            | none => none
        | none => some (cs, 0)
      match afterLeft with
      | none => none
      | some (cs1, card1) =>
          let afterRight : Option (PyDict Nat × Nat) :=
            match right.get node with
            | some r =>
                match postorder_count left right fuel r cs1 with
                | some cs2 =>
                    match cs2.get r with
                    | some cr => some (cs2, card1 + cr)
                    | none => none
                | none => none
            | none => some (cs1, card1)
          match afterRight with
          | none => none
          | some (cs2, card) => some (cs2.set node (1 + card))

/-- The number of nodes of the subtree rooted at `n`, computed directly by
fuel-indexed recursion over the `left`/`right` mapping (`0` on fuel
exhaustion); on an acyclic mapping this stabilizes once the fuel dominates
the rank (see `szF_stable`). -/
def szF (left right : PyDict Nat) : Nat → Nat → Nat
  | 0, _ => 0
  | fuel + 1, n =>
      1 +
        (match left.get n with
         | some l => szF left right fuel l
         | none => 0) +
        (match right.get n with
         | some r => szF left right fuel r
         | none => 0)

/-- `alpha = 0.01`, the convex-combination weight of `setpos`. -/
def alpha : ℚ := 1 / 100

/-- `leftwidth = st_width * (alpha * .7 + (1 - alpha) * card_subtree[left[node]] / card_subtree[node])`. -/
def lwidth (st_width cl cn : ℚ) : ℚ :=
  st_width * (alpha * (7 / 10) + (1 - alpha) * cl / cn)

/-- `leftpos = curpos - (st_width - leftwidth) / 2`. -/
def lposition (curpos st_width leftwidth : ℚ) : ℚ :=
  curpos - (st_width - leftwidth) / 2

/-- `rightwidth = st_width * (alpha * .5 + (1 - alpha) * card_subtree[right[node]] / card_subtree[node])`. -/
def rwidth (st_width cr cn : ℚ) : ℚ :=
  st_width * (alpha * (1 / 2) + (1 - alpha) * cr / cn)

/-- `rightpos = curpos + (st_width - rightwidth) / 2`. -/
def rposition (curpos st_width rightwidth : ℚ) : ℚ :=
  curpos + (st_width - rightwidth) / 2

/-- The recursive layout function of `callback_newnode.ipynb`:

```python
def setpos(T, node, curpos, st_width, depth):
    if node == 1:
        T.add_node(node, pos=(0.5, 1))
    alpha = 0.01
    if node in left.keys():
        leftwidth = st_width * (alpha * .7 + (1 - alpha) *
                                card_subtree[left[node]] / card_subtree[node])
        leftpos = curpos - (st_width - leftwidth) / 2
        T.add_node(left[node], pos=(leftpos, - depth))
        T.add_edge(node, left[node])
        setpos(T, left[node], leftpos, leftwidth, depth + 1)
    if node in right.keys():
        rightwidth = st_width * (alpha * .5 + (1 - alpha) *
                                 card_subtree[right[node]] / card_subtree[node])
        rightpos = curpos + (st_width - rightwidth) / 2
        T.add_node(right[node], pos=(rightpos, - depth))
        T.add_edge(node, right[node])
        setpos(T, right[node], rightpos, rightwidth, depth + 1)
```

The globals `left`, `right`, `card_subtree` are read-only parameters; the
mutated graph `T` is threaded through.  `depth` is a Python `int` counted
from `0`, cast to `ℚ` in the stored position.  `none` models
nontermination or a `KeyError` on `card_subtree`. -/
def setpos (left right cs : PyDict Nat) :
    Nat → Graph → Nat → ℚ → ℚ → Nat → Option Graph
  | 0, _, _, _, _, _ => none
  | fuel + 1, T, node, curpos, st_width, depth =>
      let T0 := if node = 1 then T.add_node node (1 / 2, 1) else T
      let afterLeft : Option Graph :=
        match left.get node with
        | some l =>
            match cs.get l, cs.get node with
            | some cl, some cn =>
                let leftwidth := lwidth st_width (cl : ℚ) (cn : ℚ)
                let leftpos := lposition curpos st_width leftwidth
                let T1 := (T0.add_node l (leftpos, -(depth : ℚ))).add_edge node l
                setpos left right cs fuel T1 l leftpos leftwidth (depth + 1)
            | _, _ => none
        | none => some T0
      match afterLeft with
      | none => none
      | some T2 =>
          match right.get node with
          | some r =>
              match cs.get r, cs.get node with
              | some cr, some cn =>
                  let rightwidth := rwidth st_width (cr : ℚ) (cn : ℚ)
                  let rightpos := rposition curpos st_width rightwidth
                  let T3 := (T2.add_node r (rightpos, -(depth : ℚ))).add_edge node r
                  setpos left right cs fuel T3 r rightpos rightwidth (depth + 1)
              | _, _ => none
          | none => some T2

/-! ## The notebooks as scripts

Every notebook of the repository is embedded as a list of script steps, one
step per top-level statement of interest, in source order.  Step kinds:
model construction (`buildModel` covers `xp.problem()`, `addVariable`,
`addVariables`, `addConstraint`, `addIndicator`, `addSOS`, `delSOS`,
`addpwlcons`, `setObjective`, `loadproblem` and `problem.read`),
control assignment, callback registration, solver invocation
(`p.optimize()`), solution output (`printSolution` / `plotSolution` print
or plot values obtained from the solved problem), other output, file
writing, attribute or solution reading, and — so that their absence is a
statement and not a gap in the language — thread/process creation and a
`try/except` handler. -/

/-- A solver control name appearing in the repository. -/
inductive Ctrl where
  | maxnode | threads | miprelstop | timelimit | outputlog | feastol
  | nlpsolver | localsolver
  deriving DecidableEq

/-- The value assigned to a control: an integer literal, a rational literal
`num / den`, or a named solver constant. -/
inductive CtrlVal where
  | intVal (n : Int)
  | ratVal (num : Int) (den : Nat)
  | constVal (s : String)
  deriving DecidableEq

/-- One atomic notebook statement. -/
inductive Atom where
  | installPkg
  | importLibs
  | defineFun
  | pyAssign
  | buildModel
  | setControl (c : Ctrl) (v : CtrlVal)
  | registerCallback (fname : String)
  | invokeSolver
  | readSolution
  | printSolution
  | plotSolution
  | printOther
  | writeFile
  | spawnThread
  | spawnProcess
  deriving DecidableEq

/-- A script step: an atomic statement, a sequence, or a `try/except`
handler (present in the language precisely so that the notebooks' not
using it is expressible). -/
inductive Step where
  | atom (a : Atom)
  | seq (a b : Step)
  | tryCatch (body handler : Step)
  deriving DecidableEq

/-- The atoms of a step, in execution order. -/
def Step.atoms : Step → List Atom
  | .atom a => [a]
  | .seq a b => a.atoms ++ b.atoms
  | .tryCatch body handler => body.atoms ++ handler.atoms

/-- A notebook script: its top-level steps in order. -/
abbrev Script : Type := List Step

/-- The atoms of a script, in order. -/
def scriptAtoms (s : Script) : List Atom := s.flatMap Step.atoms

/-- `true` iff the step contains no `try/except` handler. -/
def Step.handlerFree : Step → Bool
  | .atom _ => true
  | .seq a b => a.handlerFree && b.handlerFree
  | .tryCatch _ _ => false

/-- `true` iff every step of the script is handler-free. -/
def handlerFreeScript (s : Script) : Bool := s.all Step.handlerFree

/-- `true` iff the step contains a solver invocation. -/
def Step.hasInvoke : Step → Bool
  | .atom a => a = Atom.invokeSolver
  | .seq a b => a.hasInvoke || b.hasInvoke
  | .tryCatch body handler => body.hasInvoke || handler.hasInvoke

/-- `true` iff the script invokes the solver somewhere. -/
def scriptHasInvoke (s : Script) : Bool := s.any Step.hasInvoke

/-- A solver-error oracle: `orc k` is the error (if any) raised by the
`k`-th solver call of the run.  Error codes are abstract naturals. -/
abbrev Oracle : Type := Nat → Option Nat

/-- Run one step: the state is the index of the next solver call; a failing
solver call raises, `tryCatch` recovers by running the handler. -/
def Step.run (orc : Oracle) : Step → Nat → Except Nat Nat
  | .atom a, k =>
      match a with
      | Atom.invokeSolver =>
          match orc k with
          | some e => .error e
          | none => .ok (k + 1)
      | _ => .ok k
  | .seq a b, k =>
      match a.run orc k with
      | .ok k' => b.run orc k'
      | .error e => .error e
  | .tryCatch body handler, k =>
      match body.run orc k with
      | .ok k' => .ok k'
      | .error _ => handler.run orc k

/-- Run a script: steps in order, an uncaught error aborts the script. -/
def runScript (orc : Oracle) : Script → Nat → Except Nat Nat
  | [], k => .ok k
  | st :: rest, k =>
      match st.run orc k with
      | .ok k' => runScript orc rest k'
      | .error e => .error e

/-! ## The twenty-one notebook scripts

One entry per notebook, steps in source (cell, then line) order.  Atom
granularity: one `buildModel` per model-building statement
(`xp.problem()`, `addVariable(s)`, `addConstraint`, `setObjective`,
`addIndicator`, `addSOS`, `delSOS`, `addpwlcons`, `loadproblem`,
`problem.read`), one `pyAssign` per block of pure-Python data setup,
loops unrolled once. -/

/-- Shorthand for an atomic step. -/
def st (a : Atom) : Step := Step.atom a

/-- `basic_api_examples/callback_newnode.ipynb`. -/
def callbackNewnodeScript : Script :=
  [st .installPkg, st .importLibs, st .defineFun,
   st .pyAssign,
   st .buildModel,
   st .buildModel,
   st (.registerCallback "storeBBnode"),
   st (.setControl .maxnode (.intVal 10)),
   st (.setControl .threads (.intVal 1)),
   st .invokeSolver,
   st .defineFun, st .defineFun,
   st .pyAssign, st .pyAssign, st .readSolution,
   st .plotSolution]

/-- `basic_api_examples/indicators.ipynb`. -/
def indicatorsScript : Script :=
  [st .installPkg, st .importLibs,
   st .buildModel,
   st (.setControl .miprelstop (.intVal 0)),
   st .buildModel, st .buildModel, st .buildModel, st .buildModel,
   st .pyAssign,
   st .buildModel, st .buildModel,
   st .printOther,
   st .buildModel,
   st .invokeSolver,
   st .printSolution]

/-- `basic_api_examples/logic_cons.ipynb`. -/
def logicConsScript : Script :=
  [st .installPkg, st .importLibs,
   st .buildModel,
   st .buildModel,
   st .pyAssign,
   st .buildModel,
   st (.setControl .timelimit (.intVal 5)),
   st .invokeSolver,
   st .printSolution]

/-- `basic_api_examples/write_read.ipynb`. -/
def writeReadScript : Script :=
  [st .installPkg, st .importLibs,
   st .buildModel,
   st .buildModel, st .buildModel, st .buildModel, st .buildModel, st .buildModel,
   st .buildModel,
   st .buildModel,
   st .writeFile,
   st .buildModel,
   st .buildModel,
   st .invokeSolver,
   st .printSolution, st .printSolution]

/-- `modeling_examples/bin_packing.ipynb`. -/
def binPackingScript : Script :=
  [st .installPkg, st .importLibs,
   st .pyAssign,
   st .buildModel,
   st .buildModel, st .buildModel,
   st .buildModel,
   st .buildModel, st .buildModel,
   st (.setControl .outputlog (.intVal 0)),
   st .invokeSolver,
   st .readSolution,
   st .printSolution, st .printSolution,
   st .plotSolution]

/-- `modeling_examples/circle_packing.ipynb`. -/
def circlePackingScript : Script :=
  [st .installPkg, st .importLibs,
   st .pyAssign,
   st .buildModel,
   st .buildModel, st .buildModel, st .buildModel,
   st .buildModel, st .buildModel, st .buildModel, st .buildModel, st .buildModel,
   st .buildModel,
   st (.setControl .feastol (.ratVal 1 1000000000)),
   st (.setControl .timelimit (.intVal 3)),
   st (.setControl .nlpsolver (.constVal "NLPSOLVER_GLOBAL")),
   st .invokeSolver,
   st .readSolution,
   st .printSolution, st .printSolution,
   st .printSolution, st .plotSolution]

/-- `modeling_examples/markowitz_multiobj.ipynb` (the `for w` loop unrolled
once). -/
def markowitzScript : Script :=
  [st .installPkg, st .importLibs,
   st .pyAssign,
   st .buildModel,
   st .buildModel, st .buildModel,
   st .buildModel,
   st .buildModel,
   st .buildModel, st .buildModel,
   st .invokeSolver,
   st .readSolution,
   st .plotSolution,
   st .buildModel, st .buildModel,
   st .invokeSolver,
   st .readSolution,
   st .plotSolution]

/-- `modeling_examples/max_flow.ipynb`. -/
def maxFlowScript : Script :=
  [st .installPkg, st .importLibs,
   st .pyAssign,
   st .buildModel,
   st .buildModel,
   st .buildModel,
   st .buildModel, st .buildModel, st .buildModel,
   st (.setControl .outputlog (.intVal 0)),
   st .invokeSolver,
   st .printSolution,
   st .readSolution,
   st .printSolution,
   st .plotSolution]

/-- `modeling_examples/pairwise_distance.ipynb`. -/
def pairwiseDistanceScript : Script :=
  [st .installPkg, st .importLibs,
   st .pyAssign,
   st .buildModel,
   st .buildModel, st .buildModel, st .buildModel, st .buildModel,
   st .buildModel, st .buildModel, st .buildModel, st .buildModel,
   st .buildModel,
   st (.setControl .timelimit (.intVal 5)),
   st .invokeSolver,
   st .readSolution,
   st .printSolution, st .printSolution, st .printSolution,
   st .printSolution, st .plotSolution]

/-- `modeling_examples/sudoku.ipynb`. -/
def sudokuScript : Script :=
  [st .installPkg, st .importLibs,
   st .pyAssign,
   st .buildModel,
   st .buildModel,
   st .buildModel, st .buildModel, st .buildModel, st .buildModel, st .buildModel,
   st .invokeSolver,
   st .readSolution,
   st .plotSolution]

/-- `modeling_examples/unitcommitment_indicators.ipynb`. -/
def unitCommitmentScript : Script :=
  [st .installPkg, st .importLibs,
   st .pyAssign,
   st .buildModel,
   st .buildModel, st .buildModel, st .buildModel, st .buildModel,
   st .buildModel, st .buildModel, st .buildModel, st .buildModel,
   st .buildModel, st .buildModel, st .buildModel,
   st .buildModel,
   st .invokeSolver,
   st .printSolution, st .printSolution, st .printSolution,
   st .printSolution,
   st .plotSolution,
   st .buildModel, st .buildModel,
   st (.setControl .outputlog (.intVal 0)),
   st .invokeSolver,
   st .printSolution, st .printSolution, st .printSolution]

/-- `numpy_arrays.ipynb` (src/unnamed/part_000). -/
def numpyArraysScript : Script :=
  [st .installPkg, st .importLibs,
   st .buildModel,
   st .buildModel,
   st .pyAssign,
   st .buildModel,
   st .buildModel,
   st .invokeSolver,
   st .writeFile]

/-- `modeling.ipynb` (src/unnamed/part_001). -/
def modelingScript : Script :=
  [st .installPkg, st .importLibs,
   st .buildModel,
   st .buildModel, st .buildModel, st .buildModel, st .buildModel,
   st .buildModel,
   st .buildModel,
   st .invokeSolver,
   st .printSolution, st .printSolution, st .printSolution]

/-- `loadlp.ipynb` (src/unnamed/part_002). -/
def loadlpScript : Script :=
  [st .installPkg, st .importLibs,
   st .buildModel,
   st .buildModel,
   st .writeFile,
   st .invokeSolver,
   st .buildModel,
   st .invokeSolver,
   st .writeFile]

/-- `sos.ipynb` (src/unnamed/part_003). -/
def sosScript : Script :=
  [st .installPkg, st .importLibs,
   st .buildModel,
   st (.setControl .miprelstop (.intVal 0)),
   st .buildModel, st .buildModel, st .buildModel,
   st .buildModel,
   st .buildModel,
   st .printOther,
   st .buildModel,
   st .invokeSolver,
   st .printSolution,
   st .writeFile,
   st .buildModel,
   st .writeFile,
   st .invokeSolver]

/-- `load_performance.ipynb` (src/unnamed/part_004): both `p.optimize()`
calls are commented out; the notebook only builds the two models and
prints construction timings. -/
def loadPerformanceScript : Script :=
  [st .installPkg, st .importLibs,
   st .pyAssign,
   st .buildModel,
   st .buildModel,
   st .printOther,
   st .buildModel,
   st .buildModel,
   st .pyAssign,
   st .buildModel,
   st .buildModel,
   st .printOther]

/-- `piecewise_linear.ipynb` (src/unnamed/part_005). -/
def piecewiseLinearScript : Script :=
  [st .installPkg, st .importLibs,
   st .pyAssign,
   st .buildModel,
   st .buildModel, st .buildModel,
   st .buildModel,
   st .buildModel,
   st .invokeSolver,
   st .printSolution, st .printSolution, st .printSolution,
   st .plotSolution,
   st .buildModel,
   st .buildModel,
   st .buildModel,
   st .buildModel,
   st .invokeSolver,
   st .printSolution, st .printSolution, st .printSolution,
   st .plotSolution]

/-- `sudoku.ipynb` (src/unnamed/part_006; same content as
`modeling_examples/sudoku.ipynb`). -/
def sudokuUnnamedScript : Script :=
  [st .installPkg, st .importLibs,
   st .pyAssign,
   st .buildModel,
   st .buildModel,
   st .buildModel, st .buildModel, st .buildModel, st .buildModel, st .buildModel,
   st .invokeSolver,
   st .readSolution,
   st .plotSolution]

/-- `inscribed_square.ipynb` (src/unnamed/part_007). -/
def inscribedSquareScript : Script :=
  [st .installPkg, st .importLibs,
   st .buildModel,
   st .buildModel, st .buildModel, st .buildModel, st .buildModel,
   st .buildModel, st .buildModel, st .buildModel, st .buildModel,
   st .buildModel, st .buildModel, st .buildModel, st .buildModel,
   st .buildModel, st .buildModel, st .buildModel, st .buildModel,
   st .buildModel,
   st (.setControl .nlpsolver (.constVal "NLPSOLVER_LOCAL")),
   st (.setControl .localsolver (.constVal "LOCALSOLVER_XSLP")),
   st .invokeSolver,
   st .readSolution,
   st .plotSolution,
   st .printSolution]

/-- `firestation_scipy.ipynb` (src/unnamed/part_008). -/
def firestationScript : Script :=
  [st .installPkg, st .importLibs,
   st .pyAssign,
   st .printOther, st .printOther,
   st .buildModel,
   st .buildModel,
   st .buildModel,
   st .buildModel,
   st (.setControl .outputlog (.intVal 0)),
   st .invokeSolver,
   st .writeFile,
   st .printSolution, st .printSolution,
   st .printOther, st .printOther,
   st .buildModel,
   st .buildModel,
   st .buildModel,
   st .printOther,
   st .buildModel,
   st .printOther]

/-- `n_queens.ipynb` (src/unnamed/part_009). -/
def nQueensScript : Script :=
  [st .installPkg, st .importLibs,
   st .buildModel,
   st .buildModel,
   st .buildModel,
   st .buildModel, st .buildModel, st .buildModel,
   st .invokeSolver,
   st .printSolution,
   st .readSolution,
   st .printSolution,
   st .plotSolution]

/-- All notebooks of the repository, as scripts. -/
def allScripts : List Script :=
  [callbackNewnodeScript, indicatorsScript, logicConsScript, writeReadScript,
   binPackingScript, circlePackingScript, markowitzScript, maxFlowScript,
   pairwiseDistanceScript, sudokuScript, unitCommitmentScript,
   numpyArraysScript, modelingScript, loadlpScript, sosScript,
   loadPerformanceScript, piecewiseLinearScript, sudokuUnnamedScript,
   inscribedSquareScript, firestationScript, nQueensScript]

/-! ## Script predicates -/

/-- Is the atom a printing or plotting of a solution? -/
def Atom.isSolutionOutput : Atom → Bool
  | .printSolution => true
  | .plotSolution => true
  | _ => false

/-- The spec's per-notebook ordering: the solver is actually invoked, model
construction happens before the first invocation, and no solution is
printed or plotted before it. -/
def scriptOrdered (s : Script) : Bool :=
  let l := scriptAtoms s
  match l.findIdx? (fun a => decide (a = Atom.invokeSolver)) with
  | none => false
  | some j =>
      (l.take j).any (fun a => decide (a = Atom.buildModel)) &&
        !((l.take j).any Atom.isSolutionOutput)

/-- Concurrency discipline of one atom: no thread or process creation, and
any assignment to the `threads` control is of an integer literal. -/
def Atom.concOK : Atom → Bool
  | .spawnThread => false
  | .spawnProcess => false
  | .setControl .threads v =>
      match v with
      | .intVal _ => true
      | _ => false
  | _ => true

/-- Does the atom register a callback? -/
def Atom.isRegisterCb : Atom → Bool
  | .registerCallback _ => true
  | _ => false

/-- Does the script register any callback? -/
def scriptRegistersCb (s : Script) : Bool := (scriptAtoms s).any Atom.isRegisterCb

/-! ## Error propagation for handler-free scripts -/

/-- A step with no solver invocation succeeds and leaves the call counter
unchanged, whatever the oracle. -/
theorem Step.run_of_no_invoke (orc : Oracle) (s : Step)
    (h : s.hasInvoke = false) (k : Nat) : s.run orc k = .ok k := by
  induction s with
  | atom a =>
      cases a <;> simp_all [Step.hasInvoke, Step.run]
  | seq a b iha ihb =>
      simp only [Step.hasInvoke, Bool.or_eq_false_iff] at h
      simp [Step.run, iha h.1, ihb h.2]
  | tryCatch body handler ihb ihh =>
      simp only [Step.hasInvoke, Bool.or_eq_false_iff] at h
      simp [Step.run, ihb h.1]

/-- Against an always-failing solver, a handler-free step that invokes the
solver propagates exactly the solver's error. -/
theorem Step.run_allfail (e : Nat) (s : Step) (hf : s.handlerFree = true)
    (hi : s.hasInvoke = true) (k : Nat) :
    s.run (fun _ => some e) k = .error e := by
  induction s with
  | atom a =>
      cases a <;> simp_all [Step.hasInvoke, Step.run]
  | seq a b iha ihb =>
      simp only [Step.handlerFree, Bool.and_eq_true] at hf
      simp only [Step.hasInvoke, Bool.or_eq_true] at hi
      rcases hi with hi | hi
      · simp [Step.run, iha hf.1 hi]
      · rcases hA : a.hasInvoke with _ | _
        · simp [Step.run, Step.run_of_no_invoke _ a hA, ihb hf.2 hi]
        · simp [Step.run, iha hf.1 hA]
  | tryCatch body handler ihb ihh =>
      simp [Step.handlerFree] at hf

/-- Against an always-failing solver, a handler-free script that invokes
the solver at least once ends in exactly the solver's error. -/
theorem runScript_allfail (e : Nat) (s : Script)
    (hf : handlerFreeScript s = true) (hi : scriptHasInvoke s = true)
    (k : Nat) : runScript (fun _ => some e) s k = .error e := by
  induction s generalizing k with
  | nil => simp [scriptHasInvoke] at hi
  | cons hd tl ih =>
      simp only [handlerFreeScript, List.all_cons, Bool.and_eq_true] at hf
      simp only [scriptHasInvoke, List.any_cons, Bool.or_eq_true] at hi
      rcases hA : hd.hasInvoke with _ | _
      · rcases hi with hi | hi
        · rw [hA] at hi; exact absurd hi (by simp)
        · rw [runScript, Step.run_of_no_invoke _ hd hA]
          exact ih hf.2 (by simpa [scriptHasInvoke] using hi) k
      · rw [runScript, Step.run_allfail e hd hf.1 hA]

/-! ## Reachability and acyclicity -/

/-- `p` has child `c` in the stored mapping. -/
def EdgeTo (left right : PyDict Nat) (p c : Nat) : Prop :=
  left.get p = some c ∨ right.get p = some c

/-- A rank function witnessing that the finite `left`/`right` mapping is
acyclic: every stored edge strictly increases `r`, and `r` is everywhere
below the bound `B`.  A finite mapping admits such a witness exactly when
it has no directed cycle. -/
def RankedBy (left right : PyDict Nat) (r : Nat → Nat) (B : Nat) : Prop :=
  (∀ p c, EdgeTo left right p c → r p < r c) ∧ ∀ n, r n < B

/-- `m` is reachable from `n` along a chain of `k` stored edges. -/
inductive ReachLen (left right : PyDict Nat) : Nat → Nat → Nat → Prop where
  | refl (n : Nat) : ReachLen left right n n 0
  | stepL {n c m k : Nat} : left.get n = some c →
      ReachLen left right c m k → ReachLen left right n m (k + 1)
  | stepR {n c m k : Nat} : right.get n = some c →
      ReachLen left right c m k → ReachLen left right n m (k + 1)

/-- `m` belongs to the subtree rooted at `n`. -/
def Reach (left right : PyDict Nat) (n m : Nat) : Prop :=
  ∃ k, ReachLen left right n m k

theorem Reach.here {left right : PyDict Nat} (n : Nat) : Reach left right n n :=
  ⟨0, ReachLen.refl n⟩

theorem Reach.viaL {left right : PyDict Nat} {n l m : Nat}
    (hl : left.get n = some l) (h : Reach left right l m) :
    Reach left right n m := by
  obtain ⟨k, hk⟩ := h
  exact ⟨k + 1, ReachLen.stepL hl hk⟩

theorem Reach.viaR {left right : PyDict Nat} {n r' m : Nat}
    (hr : right.get n = some r') (h : Reach left right r' m) :
    Reach left right n m := by
  obtain ⟨k, hk⟩ := h
  exact ⟨k + 1, ReachLen.stepR hr hk⟩

theorem ReachLen.rank_le {left right : PyDict Nat} {r : Nat → Nat} {B : Nat}
    (hr : RankedBy left right r B) {a b k : Nat}
    (h : ReachLen left right a b k) : r a + k ≤ r b := by
  induction h with
  | refl n => omega
  | stepL hl _ ih =>
      have := hr.1 _ _ (Or.inl hl)
      omega
  | stepR hrr _ ih =>
      have := hr.1 _ _ (Or.inr hrr)
      omega

/-! ## The size oracle `szF` stabilizes on acyclic mappings -/

theorem szF_stable {left right : PyDict Nat} {r : Nat → Nat} {B : Nat}
    (hr : RankedBy left right r B) :
    ∀ fuel₁ fuel₂ n, B ≤ fuel₁ + r n → B ≤ fuel₂ + r n →
      szF left right fuel₁ n = szF left right fuel₂ n := by
  intro fuel₁
  induction fuel₁ using Nat.strong_induction_on with
  | _ fuel₁ ih =>
      intro fuel₂ n h1 h2
      have hBn := hr.2 n
      obtain ⟨f₁, rfl⟩ : ∃ f₁, fuel₁ = f₁ + 1 := ⟨fuel₁ - 1, by omega⟩
      obtain ⟨f₂, rfl⟩ : ∃ f₂, fuel₂ = f₂ + 1 := ⟨fuel₂ - 1, by omega⟩
      rw [szF, szF]
      rcases hL : left.get n with _ | l <;> rcases hR : right.get n with _ | r' <;>
        dsimp only
      · have hrr := hr.1 _ _ (Or.inr hR)
        rw [ih f₁ (by omega) f₂ r' (by omega) (by omega)]
      · have hrl := hr.1 _ _ (Or.inl hL)
        rw [ih f₁ (by omega) f₂ l (by omega) (by omega)]
      · have hrl := hr.1 _ _ (Or.inl hL)
        have hrr := hr.1 _ _ (Or.inr hR)
        rw [ih f₁ (by omega) f₂ l (by omega) (by omega),
          ih f₁ (by omega) f₂ r' (by omega) (by omega)]

theorem szF_pos (left right : PyDict Nat) {fuel : Nat} (h : 0 < fuel)
    (n : Nat) : 1 ≤ szF left right fuel n := by
  obtain ⟨f, rfl⟩ : ∃ f, fuel = f + 1 := ⟨fuel - 1, by omega⟩
  rw [szF]
  omega

/-- On an acyclic mapping, the stabilized size satisfies the defining
recursion of a subtree cardinality. -/
theorem szF_eq_children {left right : PyDict Nat} {r : Nat → Nat} {B : Nat}
    (hr : RankedBy left right r B) (n : Nat) :
    szF left right B n =
      1 +
        (match left.get n with
         | some l => szF left right B l
         | none => 0) +
        (match right.get n with
         | some r' => szF left right B r'
         | none => 0) := by
  have hBn := hr.2 n
  obtain ⟨B', hB⟩ : ∃ B', B = B' + 1 := ⟨B - 1, by omega⟩
  conv_lhs => rw [hB, szF]
  rcases hL : left.get n with _ | l <;> rcases hR : right.get n with _ | r' <;>
    dsimp only
  · have hrr := hr.1 _ _ (Or.inr hR)
    rw [szF_stable hr B' B r' (by omega) (by omega)]
  · have hrl := hr.1 _ _ (Or.inl hL)
    rw [szF_stable hr B' B l (by omega) (by omega)]
  · have hrl := hr.1 _ _ (Or.inl hL)
    have hrr := hr.1 _ _ (Or.inr hR)
    rw [szF_stable hr B' B l (by omega) (by omega),
      szF_stable hr B' B r' (by omega) (by omega)]

theorem reach_cases {left right : PyDict Nat} {n m : Nat}
    (h : Reach left right n m) :
    m = n ∨ (∃ l, left.get n = some l ∧ Reach left right l m) ∨
      (∃ r', right.get n = some r' ∧ Reach left right r' m) := by
  obtain ⟨k, hk⟩ := h
  cases hk with
  | refl => exact Or.inl rfl
  | stepL hl hrest => exact Or.inr (Or.inl ⟨_, hl, _, hrest⟩)
  | stepR hr' hrest => exact Or.inr (Or.inr ⟨_, hr', _, hrest⟩)

theorem reach_rank_mono {left right : PyDict Nat} {r : Nat → Nat} {B : Nat}
    (hr : RankedBy left right r B) {a b : Nat} (h : Reach left right a b) :
    r a ≤ r b := by
  obtain ⟨k, hk⟩ := h
  have := ReachLen.rank_le hr hk
  omega

/-- Main specification of `postorder_count` on an acyclic mapping: given
enough fuel it succeeds, stores the exact subtree cardinality of every node
of the subtree rooted at `node`, and leaves every other `card_subtree`
entry unchanged. -/
theorem postorder_count_spec {left right : PyDict Nat} {r : Nat → Nat}
    {B : Nat} (hr : RankedBy left right r B) :
    ∀ fuel n cs, B ≤ fuel + r n →
      ∃ cs', postorder_count left right fuel n cs = some cs' ∧
        (∀ m, Reach left right n m →
          cs'.get m = some (szF left right B m)) ∧
        (∀ m, ¬ Reach left right n m → cs'.get m = cs.get m) := by
  intro fuel
  induction fuel using Nat.strong_induction_on with
  | _ fuel ih =>
      intro n cs hfuel
      have hBn := hr.2 n
      obtain ⟨f, rfl⟩ : ∃ f, fuel = f + 1 := ⟨fuel - 1, by omega⟩
      rw [postorder_count]
      rcases hL : left.get n with _ | l
      · rcases hR : right.get n with _ | r'
        · -- leaf: card_subtree[n] = 1
          have hval : szF left right B n = 1 + 0 := by
            have h := szF_eq_children hr n
            simp only [hL, hR] at h
            omega
          refine ⟨cs.set n (1 + 0), by simp only [hL, hR], ?_, ?_⟩
          · intro m hm
            rcases reach_cases hm with rfl | ⟨l, hl, _⟩ | ⟨r', hr', _⟩
            · rw [PyDict.get_set_same, hval]
            · rw [hL] at hl; cases hl
            · rw [hR] at hr'; cases hr'
          · intro m hm
            have hmn : m ≠ n := by
              intro h
              exact hm (by rw [h]; exact Reach.here n)
            rw [PyDict.get_set_other _ _ _ _ hmn]
        · -- only a right child
          have hrr := hr.1 _ _ (Or.inr hR)
          obtain ⟨cs2, hcs2, hR2, hF2⟩ := ih f (by omega) r' cs (by omega)
          have hrval : cs2.get r' = some (szF left right B r') :=
            hR2 r' (Reach.here r')
          have hval : szF left right B n = 1 + (0 + szF left right B r') := by
            have h := szF_eq_children hr n
            simp only [hL, hR] at h
            omega
          refine ⟨cs2.set n (1 + (0 + szF left right B r')),
            by simp only [hL, hR, hcs2, hrval], ?_, ?_⟩
          · intro m hm
            rcases reach_cases hm with rfl | ⟨l, hl, _⟩ | ⟨r'', hr'', hmr⟩
            · rw [PyDict.get_set_same, hval]
            · rw [hL] at hl; cases hl
            · rw [hR] at hr''
              cases hr''
              have hmn : m ≠ n := by
                intro h
                subst h
                have := reach_rank_mono hr hmr
                omega
              rw [PyDict.get_set_other _ _ _ _ hmn]
              exact hR2 m hmr
          · intro m hm
            have hmn : m ≠ n := by
              intro h
              exact hm (by rw [h]; exact Reach.here n)
            rw [PyDict.get_set_other _ _ _ _ hmn]
            exact hF2 m (fun h => hm (Reach.viaR hR h))
      · -- a left child
        have hrl := hr.1 _ _ (Or.inl hL)
        obtain ⟨cs1, hcs1, hR1, hF1⟩ := ih f (by omega) l cs (by omega)
        have hlval : cs1.get l = some (szF left right B l) :=
          hR1 l (Reach.here l)
        rcases hR : right.get n with _ | r'
        · -- only a left child
          have hval : szF left right B n = 1 + szF left right B l := by
            have h := szF_eq_children hr n
            simp only [hL, hR] at h
            omega
          refine ⟨cs1.set n (1 + szF left right B l),
            by simp only [hL, hR, hcs1, hlval], ?_, ?_⟩
          · intro m hm
            rcases reach_cases hm with rfl | ⟨l', hl', hml⟩ | ⟨r', hr', _⟩
            · rw [PyDict.get_set_same, hval]
            · rw [hL] at hl'
              cases hl'
              have hmn : m ≠ n := by
                intro h
                subst h
                have := reach_rank_mono hr hml
                omega
              rw [PyDict.get_set_other _ _ _ _ hmn]
              exact hR1 m hml
            · rw [hR] at hr'; cases hr'
          · intro m hm
            have hmn : m ≠ n := by
              intro h
              exact hm (by rw [h]; exact Reach.here n)
            rw [PyDict.get_set_other _ _ _ _ hmn]
            exact hF1 m (fun h => hm (Reach.viaL hL h))
        · -- both children
          have hrr := hr.1 _ _ (Or.inr hR)
          obtain ⟨cs2, hcs2, hR2, hF2⟩ := ih f (by omega) r' cs1 (by omega)
          have hrval : cs2.get r' = some (szF left right B r') :=
            hR2 r' (Reach.here r')
          have hval : szF left right B n =
              1 + (szF left right B l + szF left right B r') := by
            have h := szF_eq_children hr n
            simp only [hL, hR] at h
            omega
          refine ⟨cs2.set n (1 + (szF left right B l + szF left right B r')),
            by simp only [hL, hR, hcs1, hlval, hcs2, hrval], ?_, ?_⟩
          · intro m hm
            rcases reach_cases hm with rfl | ⟨l', hl', hml⟩ | ⟨r'', hr'', hmr⟩
            · rw [PyDict.get_set_same, hval]
            · rw [hL] at hl'
              cases hl'
              have hmn : m ≠ n := by
                intro h
                subst h
                have := reach_rank_mono hr hml
                omega
              rw [PyDict.get_set_other _ _ _ _ hmn]
              by_cases hm2 : Reach left right r' m
              · exact hR2 m hm2
              · rw [hF2 m hm2]
                exact hR1 m hml
            · rw [hR] at hr''
              cases hr''
              have hmn : m ≠ n := by
                intro h
                subst h
                have := reach_rank_mono hr hmr
                omega
              rw [PyDict.get_set_other _ _ _ _ hmn]
              exact hR2 m hmr
          · intro m hm
            have hmn : m ≠ n := by
              intro h
              exact hm (by rw [h]; exact Reach.here n)
            rw [PyDict.get_set_other _ _ _ _ hmn]
            rw [hF2 m (fun h => hm (Reach.viaR hR h))]
            exact hF1 m (fun h => hm (Reach.viaL hL h))

/-! ## Arithmetic of the `setpos` width formulas -/

theorem lwidth_eq (w cl cn : ℚ) :
    lwidth w cl cn = w * (7 / 1000 + 99 / 100 * (cl / cn)) := by
  unfold lwidth alpha
  ring

theorem rwidth_eq (w cr cn : ℚ) :
    rwidth w cr cn = w * (1 / 200 + 99 / 100 * (cr / cn)) := by
  unfold rwidth alpha
  ring

/-- With a positive parent width and correct cardinalities, the left
child's width is strictly positive and strictly below the parent's. -/
theorem lwidth_bounds {w cl cn : ℚ} (hw : 0 < w) (hcl : 0 < cl)
    (hcn : cl < cn) : 0 < lwidth w cl cn ∧ lwidth w cl cn < w := by
  have hcn0 : (0 : ℚ) < cn := hcl.trans hcn
  have hq1 : 0 < cl / cn := div_pos hcl hcn0
  have hq2 : cl / cn < 1 := (div_lt_one hcn0).mpr hcn
  rw [lwidth_eq]
  constructor
  · nlinarith
  · nlinarith

/-- With a positive parent width and correct cardinalities, the right
child's width is strictly positive and strictly below the parent's. -/
theorem rwidth_bounds {w cr cn : ℚ} (hw : 0 < w) (hcr : 0 < cr)
    (hcn : cr < cn) : 0 < rwidth w cr cn ∧ rwidth w cr cn < w := by
  have hcn0 : (0 : ℚ) < cn := hcr.trans hcn
  have hq1 : 0 < cr / cn := div_pos hcr hcn0
  have hq2 : cr / cn < 1 := (div_lt_one hcn0).mpr hcn
  rw [rwidth_eq]
  constructor
  · nlinarith
  · nlinarith

/-- The left child's horizontal band in terms of the parent's band: it
starts at the parent band's left edge. -/
theorem lposition_band (curpos w lw : ℚ) :
    lposition curpos w lw - lw / 2 = curpos - w / 2 ∧
      lposition curpos w lw + lw / 2 = curpos - w / 2 + lw := by
  unfold lposition
  constructor <;> ring

/-- The right child's horizontal band in terms of the parent's band: it
ends at the parent band's right edge. -/
theorem rposition_band (curpos w rwd : ℚ) :
    rposition curpos w rwd + rwd / 2 = curpos + w / 2 ∧
      rposition curpos w rwd - rwd / 2 = curpos + w / 2 - rwd := by
  unfold rposition
  constructor <;> ring

/-! ## `setpos`: success and x-coordinate range -/

/-- On an acyclic mapping with correct subtree cardinalities, `setpos`
succeeds given enough fuel, and every position it writes (beyond those
already in the graph) has its x-coordinate inside the band
`[curpos - st_width/2, curpos + st_width/2]`, clipped here to `[0, 1]`
via the band hypotheses. -/
theorem setpos_xrange {left right cs : PyDict Nat} {r : Nat → Nat}
    {B : Nat} (hr : RankedBy left right r B) :
    ∀ fuel n T curpos w d, B ≤ fuel + r n →
      (∀ m, Reach left right n m → cs.get m = some (szF left right B m)) →
      0 < w → 0 ≤ curpos - w / 2 → curpos + w / 2 ≤ 1 →
      ∃ T', setpos left right cs fuel T n curpos w d = some T' ∧
        ∀ m x y, T'.posOf.get m = some (x, y) →
          T.posOf.get m = some (x, y) ∨ (0 ≤ x ∧ x ≤ 1) := by
  intro fuel
  induction fuel using Nat.strong_induction_on with
  | _ fuel ih =>
      intro n T curpos w d hfuel hsz hw hband1 hband2
      have hBn := hr.2 n
      have hB0 : 0 < B := by omega
      obtain ⟨f, rfl⟩ : ∃ f, fuel = f + 1 := ⟨fuel - 1, by omega⟩
      rw [setpos]
      have hnval : cs.get n = some (szF left right B n) := hsz n (Reach.here n)
      -- the root special case only adds x = 1/2, which is inside [0, 1]
      set T0 : Graph := if n = 1 then T.add_node n (1/2, 1) else T with hT0
      have hT0prop : ∀ m x y, T0.posOf.get m = some (x, y) →
          T.posOf.get m = some (x, y) ∨ (0 ≤ x ∧ x ≤ 1) := by
        intro m x y hm
        rw [hT0] at hm
        by_cases hn : n = 1
        · rw [if_pos hn] at hm
          by_cases hmn : m = n
          · subst hmn
            rw [Graph.add_node] at hm
            simp only [PyDict.get_set_same] at hm
            right
            cases hm
            norm_num
          · rw [Graph.add_node] at hm
            simp only at hm
            rw [PyDict.get_set_other _ _ _ _ hmn] at hm
            exact Or.inl hm
        · rw [if_neg hn] at hm
          exact Or.inl hm
      rcases hL : left.get n with _ | l
      · -- no left child
        rcases hR : right.get n with _ | r'
        · -- leaf: nothing further is written
          refine ⟨T0, by simp only [hL, hR], hT0prop⟩
        · -- only a right child
          have hrr := hr.1 _ _ (Or.inr hR)
          have hrval : cs.get r' = some (szF left right B r') :=
            hsz r' (Reach.viaR hR (Reach.here r'))
          have hcr1 : 1 ≤ szF left right B r' := szF_pos left right hB0 r'
          have hcrn : szF left right B r' < szF left right B n := by
            have h := szF_eq_children hr n
            simp only [hL, hR] at h
            omega
          have hcrQ : (0 : ℚ) < (szF left right B r' : ℚ) := by
            exact_mod_cast hcr1
          have hcnQ : ((szF left right B r' : ℚ)) < (szF left right B n : ℚ) := by
            exact_mod_cast hcrn
          obtain ⟨hrw0, hrww⟩ := rwidth_bounds hw hcrQ hcnQ
          obtain ⟨hrb1, hrb2⟩ :=
            rposition_band curpos w
              (rwidth w (szF left right B r' : ℚ) (szF left right B n : ℚ))
          set rwd := rwidth w (szF left right B r' : ℚ) (szF left right B n : ℚ)
            with hrwd
          set rp := rposition curpos w rwd with hrp
          have hchild1 : 0 ≤ rp - rwd / 2 := by
            rw [hrb2]
            linarith
          have hchild2 : rp + rwd / 2 ≤ 1 := by
            rw [hrb1]
            linarith
          have hrpx : 0 ≤ rp ∧ rp ≤ 1 := by
            constructor <;> nlinarith
          obtain ⟨T', hT', hTprop⟩ :=
            ih f (by omega) r'
              ((T0.add_node r' (rp, -(d : ℚ))).add_edge n r') rp rwd (d + 1)
              (by omega)
              (fun m hm => hsz m (Reach.viaR hR hm))
              hrw0 hchild1 hchild2
          rw [hrp, hrwd] at hT'
          refine ⟨T', by simp only [hL, hR, hrval, hnval, hT'], ?_⟩
          intro m x y hm
          rcases hTprop m x y hm with hold | hrange
          · -- written before the recursive call
            rw [Graph.add_edge] at hold
            simp only at hold
            rw [Graph.add_node] at hold
            simp only at hold
            by_cases hmr : m = r'
            · subst hmr
              rw [PyDict.get_set_same] at hold
              have hx : x = rp := by
                injection hold with h
                exact (congrArg Prod.fst h).symm
              right
              rw [hx]
              exact hrpx
            · rw [PyDict.get_set_other _ _ _ _ hmr] at hold
              exact hT0prop m x y hold
          · exact Or.inr hrange
      · -- a left child
        have hrl := hr.1 _ _ (Or.inl hL)
        have hlval : cs.get l = some (szF left right B l) :=
          hsz l (Reach.viaL hL (Reach.here l))
        have hcl1 : 1 ≤ szF left right B l := szF_pos left right hB0 l
        have hcln : szF left right B l < szF left right B n := by
          have h := szF_eq_children hr n
          simp only [hL] at h
          rcases hR' : right.get n with _ | r''
          · rw [hR'] at h; omega
          · rw [hR'] at h
            have := szF_pos left right hB0 r''
            omega
        have hclQ : (0 : ℚ) < (szF left right B l : ℚ) := by exact_mod_cast hcl1
        have hcnQ : ((szF left right B l : ℚ)) < (szF left right B n : ℚ) := by
          exact_mod_cast hcln
        obtain ⟨hlw0, hlww⟩ := lwidth_bounds hw hclQ hcnQ
        obtain ⟨hlb1, hlb2⟩ :=
          lposition_band curpos w
            (lwidth w (szF left right B l : ℚ) (szF left right B n : ℚ))
        set lwd := lwidth w (szF left right B l : ℚ) (szF left right B n : ℚ)
          with hlwd
        set lp := lposition curpos w lwd with hlp
        have hchild1 : 0 ≤ lp - lwd / 2 := by
          rw [hlb1]
          linarith
        have hchild2 : lp + lwd / 2 ≤ 1 := by
          rw [hlb2]
          linarith
        have hlpx : 0 ≤ lp ∧ lp ≤ 1 := by
          constructor <;> nlinarith
        obtain ⟨T2, hT2, hT2prop⟩ :=
          ih f (by omega) l
            ((T0.add_node l (lp, -(d : ℚ))).add_edge n l) lp lwd (d + 1)
            (by omega)
            (fun m hm => hsz m (Reach.viaL hL hm))
            hlw0 hchild1 hchild2
        rw [hlp, hlwd] at hT2
        have hT2chain : ∀ m x y, T2.posOf.get m = some (x, y) →
            T.posOf.get m = some (x, y) ∨ (0 ≤ x ∧ x ≤ 1) := by
          intro m x y hm
          rcases hT2prop m x y hm with hold | hrange
          · rw [Graph.add_edge] at hold
            simp only at hold
            rw [Graph.add_node] at hold
            simp only at hold
            by_cases hml : m = l
            · subst hml
              rw [PyDict.get_set_same] at hold
              have hx : x = lp := by
                injection hold with h
                exact (congrArg Prod.fst h).symm
              right
              rw [hx]
              exact hlpx
            · rw [PyDict.get_set_other _ _ _ _ hml] at hold
              exact hT0prop m x y hold
          · exact Or.inr hrange
        rcases hR : right.get n with _ | r'
        · -- no right child: done after the left recursion
          refine ⟨T2, by simp only [hL, hR, hlval, hnval, hT2], hT2chain⟩
        · -- both children
          have hrr := hr.1 _ _ (Or.inr hR)
          have hrval : cs.get r' = some (szF left right B r') :=
            hsz r' (Reach.viaR hR (Reach.here r'))
          have hcr1 : 1 ≤ szF left right B r' := szF_pos left right hB0 r'
          have hcrn : szF left right B r' < szF left right B n := by
            have h := szF_eq_children hr n
            simp only [hL, hR] at h
            omega
          have hcrQ : (0 : ℚ) < (szF left right B r' : ℚ) := by
            exact_mod_cast hcr1
          have hcnQ' : ((szF left right B r' : ℚ)) < (szF left right B n : ℚ) := by
            exact_mod_cast hcrn
          obtain ⟨hrw0, hrww⟩ := rwidth_bounds hw hcrQ hcnQ'
          obtain ⟨hrb1, hrb2⟩ :=
            rposition_band curpos w
              (rwidth w (szF left right B r' : ℚ) (szF left right B n : ℚ))
          set rwd := rwidth w (szF left right B r' : ℚ) (szF left right B n : ℚ)
            with hrwd
          set rp := rposition curpos w rwd with hrp
          have hchild1' : 0 ≤ rp - rwd / 2 := by
            rw [hrb2]
            linarith
          have hchild2' : rp + rwd / 2 ≤ 1 := by
            rw [hrb1]
            linarith
          have hrpx : 0 ≤ rp ∧ rp ≤ 1 := by
            constructor <;> nlinarith
          obtain ⟨T', hT', hTprop⟩ :=
            ih f (by omega) r'
              ((T2.add_node r' (rp, -(d : ℚ))).add_edge n r') rp rwd (d + 1)
              (by omega)
              (fun m hm => hsz m (Reach.viaR hR hm))
              hrw0 hchild1' hchild2'
          rw [hrp, hrwd] at hT'
          refine ⟨T', by simp only [hL, hR, hlval, hnval, hrval, hT2, hT'], ?_⟩
          intro m x y hm
          rcases hTprop m x y hm with hold | hrange
          · rw [Graph.add_edge] at hold
            simp only at hold
            rw [Graph.add_node] at hold
            simp only at hold
            by_cases hmr : m = r'
            · subst hmr
              rw [PyDict.get_set_same] at hold
              have hx : x = rp := by
                injection hold with h
                exact (congrArg Prod.fst h).symm
              right
              rw [hx]
              exact hrpx
            · rw [PyDict.get_set_other _ _ _ _ hmr] at hold
              exact hT2chain m x y hold
          · exact Or.inr hrange

/-! ## Unique path lengths in a tree-shaped mapping -/

theorem reachlen_zero {left right : PyDict Nat} {n m : Nat}
    (h : ReachLen left right n m 0) : m = n := by
  cases h
  rfl

/-- Decompose a nonempty chain at its last edge. -/
theorem reachlen_tail {left right : PyDict Nat} :
    ∀ k n m, ReachLen left right n m (k + 1) →
      ∃ p, ReachLen left right n p k ∧ EdgeTo left right p m := by
  intro k
  induction k with
  | zero =>
      intro n m h
      cases h with
      | stepL hl hrest =>
          have hm := reachlen_zero hrest
          subst hm
          exact ⟨n, ReachLen.refl n, Or.inl hl⟩
      | stepR hrr hrest =>
          have hm := reachlen_zero hrest
          subst hm
          exact ⟨n, ReachLen.refl n, Or.inr hrr⟩
  | succ j ih =>
      intro n m h
      cases h with
      | stepL hl hrest =>
          obtain ⟨p, hp, he⟩ := ih _ _ hrest
          exact ⟨p, ReachLen.stepL hl hp, he⟩
      | stepR hrr hrest =>
          obtain ⟨p, hp, he⟩ := ih _ _ hrest
          exact ⟨p, ReachLen.stepR hrr hp, he⟩

/-- In an acyclic mapping in which every node has at most one parent, the
length of a chain between two nodes is unique. -/
theorem reachlen_unique {left right : PyDict Nat} {r : Nat → Nat} {B : Nat}
    (hr : RankedBy left right r B)
    (hup : ∀ p p' c, EdgeTo left right p c → EdgeTo left right p' c → p = p')
    {n : Nat} :
    ∀ k k' m, ReachLen left right n m k → ReachLen left right n m k' →
      k = k' := by
  intro k
  induction k using Nat.strong_induction_on with
  | _ k ih =>
      intro k' m h h'
      rcases Nat.eq_zero_or_pos k with rfl | hk
      · have hm := reachlen_zero h
        subst hm
        rcases Nat.eq_zero_or_pos k' with rfl | hk'
        · rfl
        · have := ReachLen.rank_le hr h'
          omega
      · rcases Nat.eq_zero_or_pos k' with rfl | hk'
        · have hm := reachlen_zero h'
          subst hm
          have := ReachLen.rank_le hr h
          omega
        · obtain ⟨k₀, rfl⟩ : ∃ k₀, k = k₀ + 1 := ⟨k - 1, by omega⟩
          obtain ⟨k₀', rfl⟩ : ∃ k₀', k' = k₀' + 1 := ⟨k' - 1, by omega⟩
          obtain ⟨p, hp, he⟩ := reachlen_tail k₀ n m h
          obtain ⟨p', hp', he'⟩ := reachlen_tail k₀' n m h'
          have hpp : p = p' := hup _ _ _ he he'
          subst hpp
          have := ih k₀ (by omega) k₀' p hp hp'
          omega

/-- Layout specification of `setpos` on a tree-shaped mapping (acyclic,
at most one parent per node, no parent for the root `1`): given enough
fuel it succeeds; existing edges are preserved; every proper descendant
`m` of the start node, at chain distance `k`, receives a position whose
y-coordinate is `1 - (d + k)` together with an edge to its parent; nodes
outside the subtree keep their positions; and a run started at the root
stores position `(1/2, 1)` for it. -/
theorem setpos_layout {left right cs : PyDict Nat} {r : Nat → Nat}
    {B : Nat} (hr : RankedBy left right r B)
    (hup : ∀ p p' c, EdgeTo left right p c → EdgeTo left right p' c → p = p')
    (hroot : ∀ p, ¬ EdgeTo left right p 1) :
    ∀ fuel n T curpos w d, B ≤ fuel + r n →
      (∀ m, Reach left right n m → cs.get m = some (szF left right B m)) →
      ∃ T', setpos left right cs fuel T n curpos w d = some T' ∧
        (∀ e, e ∈ T.edges → e ∈ T'.edges) ∧
        (∀ m k, ReachLen left right n m k → 1 ≤ k →
          (∃ x, T'.posOf.get m = some (x, 1 - ((d + k : ℕ) : ℚ))) ∧
          ∃ p, EdgeTo left right p m ∧ (p, m) ∈ T'.edges) ∧
        (∀ m, (¬ ∃ k, 1 ≤ k ∧ ReachLen left right n m k) → (m = 1 → n ≠ 1) →
          T'.posOf.get m = T.posOf.get m) ∧
        (n = 1 → T'.posOf.get 1 = some (1/2, 1)) := by
  have hself : ∀ c, ¬ ∃ k, 1 ≤ k ∧ ReachLen left right c c k := by
    rintro c ⟨k, hk1, hk⟩
    have := ReachLen.rank_le hr hk
    omega
  have hno1 : ∀ c, ¬ ∃ k, 1 ≤ k ∧ ReachLen left right c 1 k := by
    rintro c ⟨k, hk1, hk⟩
    obtain ⟨k₀, rfl⟩ : ∃ k₀, k = k₀ + 1 := ⟨k - 1, by omega⟩
    obtain ⟨p, _, he⟩ := reachlen_tail k₀ c 1 hk
    exact hroot p he
  have hcast : ∀ dd : ℕ, (1 : ℚ) - ((dd + 1 : ℕ) : ℚ) = -(dd : ℚ) := by
    intro dd
    push_cast
    ring
  intro fuel
  induction fuel using Nat.strong_induction_on with
  | _ fuel ih =>
      intro n T curpos w d hfuel hsz
      have hBn := hr.2 n
      have hB0 : 0 < B := by omega
      obtain ⟨f, rfl⟩ : ∃ f, fuel = f + 1 := ⟨fuel - 1, by omega⟩
      rw [setpos]
      have hnval : cs.get n = some (szF left right B n) := hsz n (Reach.here n)
      set T0 : Graph := if n = 1 then T.add_node n (1/2, 1) else T with hT0
      have hT0edges : T0.edges = T.edges := by
        rw [hT0]
        by_cases hn : n = 1
        · rw [if_pos hn]
          rfl
        · rw [if_neg hn]
      have hT0frame : ∀ m, (m = 1 → n ≠ 1) → T0.posOf.get m = T.posOf.get m := by
        intro m hm1
        rw [hT0]
        by_cases hn : n = 1
        · rw [if_pos hn]
          have hmn : m ≠ n := by
            intro h
            exact hm1 (by rw [h, hn]) hn
          simp only [Graph.add_node]
          exact PyDict.get_set_other _ _ _ _ hmn
        · rw [if_neg hn]
      have hT0root : n = 1 → T0.posOf.get 1 = some (1/2, 1) := by
        intro hn
        rw [hT0, if_pos hn, hn]
        simp only [Graph.add_node]
        exact PyDict.get_set_same _ _ _
      rcases hL : left.get n with _ | l
      · rcases hR : right.get n with _ | r'
        · -- leaf
          refine ⟨T0, by simp only [hL, hR], ?_, ?_, ?_, hT0root⟩
          · intro e he
            rw [hT0edges]
            exact he
          · intro m k hk hk1
            exfalso
            obtain ⟨k₀, rfl⟩ : ∃ k₀, k = k₀ + 1 := ⟨k - 1, by omega⟩
            cases hk with
            | stepL hl _ => rw [hL] at hl; cases hl
            | stepR hrr _ => rw [hR] at hrr; cases hrr
          · intro m _ hm1
            exact hT0frame m hm1
        · -- only a right child
          have hrr := hr.1 _ _ (Or.inr hR)
          have hr1 : r' ≠ 1 := fun h => hroot n (Or.inr (h ▸ hR))
          have hrval : cs.get r' = some (szF left right B r') :=
            hsz r' (Reach.viaR hR (Reach.here r'))
          set rwd := rwidth w (szF left right B r' : ℚ) (szF left right B n : ℚ)
            with hrwd
          set rp := rposition curpos w rwd with hrp
          obtain ⟨T', hT', hE', hP', hF', _⟩ :=
            ih f (by omega) r'
              ((T0.add_node r' (rp, -(d : ℚ))).add_edge n r') rp rwd (d + 1)
              (by omega) (fun m hm => hsz m (Reach.viaR hR hm))
          have hT1r : ((T0.add_node r' (rp, -(d : ℚ))).add_edge n r').posOf.get r' =
              some (rp, -(d : ℚ)) := by
            simp only [Graph.add_edge, Graph.add_node]
            exact PyDict.get_set_same _ _ _
          have hT1other : ∀ m, m ≠ r' →
              ((T0.add_node r' (rp, -(d : ℚ))).add_edge n r').posOf.get m =
                T0.posOf.get m := by
            intro m hm
            simp only [Graph.add_edge, Graph.add_node]
            exact PyDict.get_set_other _ _ _ _ hm
          have hT1edges : ∀ e, e ∈ T.edges →
              e ∈ ((T0.add_node r' (rp, -(d : ℚ))).add_edge n r').edges := by
            intro e he
            simp only [Graph.add_edge, Graph.add_node, List.mem_append]
            left
            rw [hT0edges]
            exact he
          have hT1last : (n, r') ∈
              ((T0.add_node r' (rp, -(d : ℚ))).add_edge n r').edges := by
            simp only [Graph.add_edge, Graph.add_node, List.mem_append]
            right
            exact List.mem_singleton.mpr rfl
          rw [hrp, hrwd] at hT'
          refine ⟨T', by simp only [hL, hR, hrval, hnval, hT'], ?_, ?_, ?_, ?_⟩
          · intro e he
            exact hE' e (hT1edges e he)
          · intro m k hk hk1
            obtain ⟨k₀, rfl⟩ : ∃ k₀, k = k₀ + 1 := ⟨k - 1, by omega⟩
            cases hk with
            | stepL hl _ => rw [hL] at hl; cases hl
            | stepR hrr2 hrest =>
                rw [hR] at hrr2
                injection hrr2 with hr''
                rw [← hr''] at hrest
                rcases Nat.eq_zero_or_pos k₀ with rfl | hk₀
                · have hm := reachlen_zero hrest
                  subst m
                  constructor
                  · refine ⟨rp, ?_⟩
                    rw [hF' r' (hself r') (fun h => absurd h hr1), hT1r]
                    have : d + (0 + 1) = d + 1 := by omega
                    rw [this, hcast d]
                  · exact ⟨n, Or.inr hR, hE' _ hT1last⟩
                · obtain ⟨⟨x, hx⟩, hedge⟩ := hP' m k₀ hrest hk₀
                  refine ⟨⟨x, ?_⟩, hedge⟩
                  have heq : d + (k₀ + 1) = d + 1 + k₀ := by omega
                  rw [heq]
                  exact hx
          · intro m hnp hm1
            have hnpr : ¬ ∃ k, 1 ≤ k ∧ ReachLen left right r' m k := by
              rintro ⟨k, hk1, hk⟩
              exact hnp ⟨k + 1, by omega, ReachLen.stepR hR hk⟩
            have hmr : m ≠ r' := by
              intro h
              exact hnp ⟨1, by omega, by
                rw [h]
                exact ReachLen.stepR hR (ReachLen.refl r')⟩
            rw [hF' m hnpr (fun _ => hr1), hT1other m hmr]
            exact hT0frame m hm1
          · intro hn
            rw [hF' 1 (hno1 r') (fun _ => hr1),
              hT1other 1 (fun h => hr1 h.symm)]
            exact hT0root hn
      · -- a left child
        have hrl := hr.1 _ _ (Or.inl hL)
        have hl1 : l ≠ 1 := fun h => hroot n (Or.inl (h ▸ hL))
        have hlval : cs.get l = some (szF left right B l) :=
          hsz l (Reach.viaL hL (Reach.here l))
        set lwd := lwidth w (szF left right B l : ℚ) (szF left right B n : ℚ)
          with hlwd
        set lp := lposition curpos w lwd with hlp
        obtain ⟨T2, hT2, hE2, hP2, hF2, _⟩ :=
          ih f (by omega) l
            ((T0.add_node l (lp, -(d : ℚ))).add_edge n l) lp lwd (d + 1)
            (by omega) (fun m hm => hsz m (Reach.viaL hL hm))
        have hT1l : ((T0.add_node l (lp, -(d : ℚ))).add_edge n l).posOf.get l =
            some (lp, -(d : ℚ)) := by
          simp only [Graph.add_edge, Graph.add_node]
          exact PyDict.get_set_same _ _ _
        have hT1other : ∀ m, m ≠ l →
            ((T0.add_node l (lp, -(d : ℚ))).add_edge n l).posOf.get m =
              T0.posOf.get m := by
          intro m hm
          simp only [Graph.add_edge, Graph.add_node]
          exact PyDict.get_set_other _ _ _ _ hm
        have hT1edges : ∀ e, e ∈ T.edges →
            e ∈ ((T0.add_node l (lp, -(d : ℚ))).add_edge n l).edges := by
          intro e he
          simp only [Graph.add_edge, Graph.add_node, List.mem_append]
          left
          rw [hT0edges]
          exact he
        have hT1last : (n, l) ∈
            ((T0.add_node l (lp, -(d : ℚ))).add_edge n l).edges := by
          simp only [Graph.add_edge, Graph.add_node, List.mem_append]
          right
          exact List.mem_singleton.mpr rfl
        rw [hlp, hlwd] at hT2
        -- facts about T2 shared by both right-hand cases
        have hT2l : T2.posOf.get l = some (lp, -(d : ℚ)) := by
          rw [hF2 l (hself l) (fun h => absurd h hl1), hT1l]
        have hT2root : n = 1 → T2.posOf.get 1 = some (1/2, 1) := by
          intro hn
          rw [hF2 1 (hno1 l) (fun _ => hl1),
            hT1other 1 (fun h => hl1 h.symm)]
          exact hT0root hn
        rcases hR : right.get n with _ | r'
        · -- no right child
          refine ⟨T2, by simp only [hL, hR, hlval, hnval, hT2], ?_, ?_, ?_,
            hT2root⟩
          · intro e he
            exact hE2 e (hT1edges e he)
          · intro m k hk hk1
            obtain ⟨k₀, rfl⟩ : ∃ k₀, k = k₀ + 1 := ⟨k - 1, by omega⟩
            cases hk with
            | stepR hrr2 _ => rw [hR] at hrr2; cases hrr2
            | stepL hl2 hrest =>
                rw [hL] at hl2
                injection hl2 with hl''
                rw [← hl''] at hrest
                rcases Nat.eq_zero_or_pos k₀ with rfl | hk₀
                · have hm := reachlen_zero hrest
                  subst m
                  constructor
                  · refine ⟨lp, ?_⟩
                    rw [hT2l]
                    have : d + (0 + 1) = d + 1 := by omega
                    rw [this, hcast d]
                  · exact ⟨n, Or.inl hL, hE2 _ hT1last⟩
                · obtain ⟨⟨x, hx⟩, hedge⟩ := hP2 m k₀ hrest hk₀
                  refine ⟨⟨x, ?_⟩, hedge⟩
                  have heq : d + (k₀ + 1) = d + 1 + k₀ := by omega
                  rw [heq]
                  exact hx
          · intro m hnp hm1
            have hnpl : ¬ ∃ k, 1 ≤ k ∧ ReachLen left right l m k := by
              rintro ⟨k, hk1, hk⟩
              exact hnp ⟨k + 1, by omega, ReachLen.stepL hL hk⟩
            have hml : m ≠ l := by
              intro h
              exact hnp ⟨1, by omega, by
                rw [h]
                exact ReachLen.stepL hL (ReachLen.refl l)⟩
            rw [hF2 m hnpl (fun _ => hl1), hT1other m hml]
            exact hT0frame m hm1
        · -- both children
          have hrr := hr.1 _ _ (Or.inr hR)
          have hr1 : r' ≠ 1 := fun h => hroot n (Or.inr (h ▸ hR))
          have hrval : cs.get r' = some (szF left right B r') :=
            hsz r' (Reach.viaR hR (Reach.here r'))
          set rwd := rwidth w (szF left right B r' : ℚ) (szF left right B n : ℚ)
            with hrwd
          set rp := rposition curpos w rwd with hrp
          obtain ⟨T', hT', hE', hP', hF', _⟩ :=
            ih f (by omega) r'
              ((T2.add_node r' (rp, -(d : ℚ))).add_edge n r') rp rwd (d + 1)
              (by omega) (fun m hm => hsz m (Reach.viaR hR hm))
          have hT3r : ((T2.add_node r' (rp, -(d : ℚ))).add_edge n r').posOf.get r' =
              some (rp, -(d : ℚ)) := by
            simp only [Graph.add_edge, Graph.add_node]
            exact PyDict.get_set_same _ _ _
          have hT3other : ∀ m, m ≠ r' →
              ((T2.add_node r' (rp, -(d : ℚ))).add_edge n r').posOf.get m =
                T2.posOf.get m := by
            intro m hm
            simp only [Graph.add_edge, Graph.add_node]
            exact PyDict.get_set_other _ _ _ _ hm
          have hT3edges : ∀ e, e ∈ T2.edges →
              e ∈ ((T2.add_node r' (rp, -(d : ℚ))).add_edge n r').edges := by
            intro e he
            simp only [Graph.add_edge, Graph.add_node, List.mem_append]
            left
            exact he
          have hT3last : (n, r') ∈
              ((T2.add_node r' (rp, -(d : ℚ))).add_edge n r').edges := by
            simp only [Graph.add_edge, Graph.add_node, List.mem_append]
            right
            exact List.mem_singleton.mpr rfl
          rw [hrp, hrwd] at hT'
          refine ⟨T', by simp only [hL, hR, hlval, hnval, hrval, hT2, hT'],
            ?_, ?_, ?_, ?_⟩
          · intro e he
            exact hE' e (hT3edges e (hE2 e (hT1edges e he)))
          · intro m k hk hk1
            obtain ⟨k₀, rfl⟩ : ∃ k₀, k = k₀ + 1 := ⟨k - 1, by omega⟩
            cases hk with
            | stepL hl2 hrest =>
                rw [hL] at hl2
                injection hl2 with hl''
                rw [← hl''] at hrest
                by_cases hmr2 : ∃ k'', 1 ≤ k'' ∧ ReachLen left right r' m k''
                · -- `m` also lies in the right subtree: lengths agree
                  obtain ⟨k'', hk''1, hk''⟩ := hmr2
                  have huniq : k'' + 1 = k₀ + 1 :=
                    reachlen_unique hr hup (k'' + 1) (k₀ + 1) m
                      (ReachLen.stepR hR hk'') (ReachLen.stepL hL hrest)
                  obtain ⟨⟨x, hx⟩, hedge⟩ := hP' m k'' hk'' hk''1
                  refine ⟨⟨x, ?_⟩, hedge⟩
                  have heq : d + (k₀ + 1) = d + 1 + k'' := by omega
                  rw [heq]
                  exact hx
                · -- `m` not properly inside the right subtree
                  have hsurv : T'.posOf.get m =
                      ((T2.add_node r' (rp, -(d : ℚ))).add_edge n r').posOf.get m :=
                    hF' m hmr2 (fun _ => hr1)
                  rcases Nat.eq_zero_or_pos k₀ with rfl | hk₀
                  · have hm := reachlen_zero hrest
                    subst m
                    constructor
                    · by_cases hlr : l = r'
                      · refine ⟨rp, ?_⟩
                        rw [hsurv, hlr, hT3r]
                        have : d + (0 + 1) = d + 1 := by omega
                        rw [this, hcast d]
                      · refine ⟨lp, ?_⟩
                        rw [hsurv, hT3other l hlr, hT2l]
                        have : d + (0 + 1) = d + 1 := by omega
                        rw [this, hcast d]
                    · exact ⟨n, Or.inl hL, hE' _ (hT3edges _ (hE2 _ hT1last))⟩
                  · have hmner : m ≠ r' := by
                      intro h
                      obtain ⟨k₁, rfl⟩ : ∃ k₁, k₀ = k₁ + 1 := ⟨k₀ - 1, by omega⟩
                      obtain ⟨p, hp, he⟩ := reachlen_tail k₁ l m hrest
                      have hpn : p = n := hup p n m he (by rw [h]; exact Or.inr hR)
                      subst p
                      exact hself n ⟨k₁ + 1, by omega, ReachLen.stepL hL hp⟩
                    obtain ⟨⟨x, hx⟩, hedge⟩ := hP2 m k₀ hrest hk₀
                    constructor
                    · refine ⟨x, ?_⟩
                      rw [hsurv, hT3other m hmner]
                      have heq : d + (k₀ + 1) = d + 1 + k₀ := by omega
                      rw [heq]
                      exact hx
                    · obtain ⟨p, hep, hmem⟩ := hedge
                      exact ⟨p, hep, hE' _ (hT3edges _ hmem)⟩
            | stepR hrr2 hrest =>
                rw [hR] at hrr2
                injection hrr2 with hr''
                rw [← hr''] at hrest
                rcases Nat.eq_zero_or_pos k₀ with rfl | hk₀
                · have hm := reachlen_zero hrest
                  subst m
                  constructor
                  · refine ⟨rp, ?_⟩
                    rw [hF' r' (hself r') (fun h => absurd h hr1), hT3r]
                    have : d + (0 + 1) = d + 1 := by omega
                    rw [this, hcast d]
                  · exact ⟨n, Or.inr hR, hE' _ hT3last⟩
                · obtain ⟨⟨x, hx⟩, hedge⟩ := hP' m k₀ hrest hk₀
                  refine ⟨⟨x, ?_⟩, hedge⟩
                  have heq : d + (k₀ + 1) = d + 1 + k₀ := by omega
                  rw [heq]
                  exact hx
          · intro m hnp hm1
            have hnpl : ¬ ∃ k, 1 ≤ k ∧ ReachLen left right l m k := by
              rintro ⟨k, hk1, hk⟩
              exact hnp ⟨k + 1, by omega, ReachLen.stepL hL hk⟩
            have hnpr : ¬ ∃ k, 1 ≤ k ∧ ReachLen left right r' m k := by
              rintro ⟨k, hk1, hk⟩
              exact hnp ⟨k + 1, by omega, ReachLen.stepR hR hk⟩
            have hml : m ≠ l := by
              intro h
              exact hnp ⟨1, by omega, by
                rw [h]
                exact ReachLen.stepL hL (ReachLen.refl l)⟩
            have hmr : m ≠ r' := by
              intro h
              exact hnp ⟨1, by omega, by
                rw [h]
                exact ReachLen.stepR hR (ReachLen.refl r')⟩
            rw [hF' m hnpr (fun _ => hr1), hT3other m hmr,
              hF2 m hnpl (fun _ => hl1), hT1other m hml]
            exact hT0frame m hm1
          · intro hn
            rw [hF' 1 (hno1 r') (fun _ => hr1),
              hT3other 1 (fun h => hr1 h.symm)]
            exact hT2root hn

/-! ## Folding callback events: edge correspondence -/

theorem storeBBnode_eq_zero (s : ProgState) (pr : Problem) (g : Graph)
    (p c : Nat) {b : Int} (hb : b = 0) :
    (storeBBnode s pr g p c b).1 =
      { s with nodes := s.nodes.set c (s.nodes.size + 1),
               left := s.left.set p c } := by
  subst hb
  simp [storeBBnode]

theorem storeBBnode_ne_zero (s : ProgState) (pr : Problem) (g : Graph)
    (p c : Nat) {b : Int} (hb : b ≠ 0) :
    (storeBBnode s pr g p c b).1 =
      { s with nodes := s.nodes.set c (s.nodes.size + 1),
               right := s.right.set p c } := by
  simp [storeBBnode, hb]

/-- The key of a callback event: its parent and its branch side. -/
def eventKey (e : BBEvent) : Nat × Bool := (e.1, decide (e.2.2 = 0))

/-- Every `(parent, side)` key is reported at most once. -/
def KeysUnique (events : List BBEvent) : Prop := (events.map eventKey).Nodup

instance keysUniqueDecidable (events : List BBEvent) :
    Decidable (KeysUnique events) :=
  inferInstanceAs (Decidable ((events.map eventKey).Nodup))

/-- No event of the list branches left from parent `p`. -/
def NoLeftEvent (p : Nat) (events : List BBEvent) : Prop :=
  ∀ e ∈ events, ¬ (e.1 = p ∧ e.2.2 = 0)

/-- No event of the list branches right from parent `p`. -/
def NoRightEvent (p : Nat) (events : List BBEvent) : Prop :=
  ∀ e ∈ events, ¬ (e.1 = p ∧ e.2.2 ≠ 0)

/-- With unique keys, the `left` dictionary after a run holds exactly the
left-branch events, the entries it started with for untouched parents
apart. -/
theorem runEvents_left_spec (pr : Problem) (g : Graph) :
    ∀ events s p c, KeysUnique events →
      ((runEvents pr g events s).left.get p = some c ↔
        ((p, c, (0 : Int)) ∈ events ∨
          (s.left.get p = some c ∧ NoLeftEvent p events))) := by
  intro events
  induction events with
  | nil =>
      intro s p c _
      simp [runEvents, NoLeftEvent]
  | cons e rest ih =>
      intro s p c hK
      obtain ⟨q, c', b⟩ := e
      have hKrest : KeysUnique rest := (List.nodup_cons.mp hK).2
      have hKhead : eventKey (q, c', b) ∉ rest.map eventKey :=
        (List.nodup_cons.mp hK).1
      rw [runEvents]
      rw [ih ((storeBBnode s pr g q c' b).1) p c hKrest]
      by_cases hb : b = 0
      · rw [storeBBnode_eq_zero s pr g q c' hb]
        subst hb
        by_cases hpq : p = q
        · subst hpq
          have hnorest : ∀ c₀, (p, c₀, (0 : Int)) ∉ rest := by
            intro c₀ hc₀
            exact hKhead (List.mem_map.mpr ⟨(p, c₀, 0), hc₀, rfl⟩)
          simp only [PyDict.get_set_same]
          constructor
          · rintro (hmem | ⟨hsome, _⟩)
            · exact absurd hmem (hnorest c)
            · left
              injection hsome with h
              rw [h]
              exact List.mem_cons_self _ _
          · rintro (hmem | ⟨_, hno⟩)
            · rcases List.mem_cons.mp hmem with heq | hmem'
              · injection heq with _ h2
                injection h2 with h2 _
                right
                exact ⟨by rw [h2], fun e' he' hcon =>
                  (hnorest e'.2.1) (by
                    obtain ⟨e1, e2, e3⟩ := e'
                    obtain ⟨hc1, hc2⟩ := hcon
                    simp only at hc1 hc2
                    subst hc1
                    subst hc2
                    exact he')⟩
              · exact absurd hmem' (hnorest c)
            · exact absurd ⟨rfl, rfl⟩ (hno (p, c', 0) (List.mem_cons_self _ _))
        · simp only [PyDict.get_set_other _ _ _ _ hpq]
          constructor
          · rintro (hmem | ⟨hsome, hno⟩)
            · exact Or.inl (List.mem_cons.mpr (Or.inr hmem))
            · refine Or.inr ⟨hsome, ?_⟩
              intro e' he' hcon
              rcases List.mem_cons.mp he' with heq | hmem'
              · rw [heq] at hcon
                exact hpq hcon.1.symm
              · exact hno e' hmem' hcon
          · rintro (hmem | ⟨hsome, hno⟩)
            · rcases List.mem_cons.mp hmem with heq | hmem'
              · injection heq with h1 _
                exact absurd h1 hpq
              · exact Or.inl hmem'
            · exact Or.inr ⟨hsome, fun e' he' =>
                hno e' (List.mem_cons.mpr (Or.inr he'))⟩
      · rw [storeBBnode_ne_zero s pr g q c' hb]
        constructor
        · rintro (hmem | ⟨hsome, hno⟩)
          · exact Or.inl (List.mem_cons.mpr (Or.inr hmem))
          · refine Or.inr ⟨hsome, ?_⟩
            intro e' he' hcon
            rcases List.mem_cons.mp he' with heq | hmem'
            · rw [heq] at hcon
              exact hb hcon.2
            · exact hno e' hmem' hcon
        · rintro (hmem | ⟨hsome, hno⟩)
          · rcases List.mem_cons.mp hmem with heq | hmem'
            · exfalso
              apply hb
              injection heq with _ h2
              injection h2 with _ h3
              rw [h3]
            · exact Or.inl hmem'
          · exact Or.inr ⟨hsome, fun e' he' =>
              hno e' (List.mem_cons.mpr (Or.inr he'))⟩

/-- With unique keys, the `right` dictionary after a run holds exactly the
right-branch events, the entries it started with for untouched parents
apart. -/
theorem runEvents_right_spec (pr : Problem) (g : Graph) :
    ∀ events s p c, KeysUnique events →
      ((runEvents pr g events s).right.get p = some c ↔
        ((∃ b, b ≠ 0 ∧ (p, c, b) ∈ events) ∨
          (s.right.get p = some c ∧ NoRightEvent p events))) := by
  intro events
  induction events with
  | nil =>
      intro s p c _
      simp [runEvents, NoRightEvent]
  | cons e rest ih =>
      intro s p c hK
      obtain ⟨q, c', b⟩ := e
      have hKrest : KeysUnique rest := (List.nodup_cons.mp hK).2
      have hKhead : eventKey (q, c', b) ∉ rest.map eventKey :=
        (List.nodup_cons.mp hK).1
      rw [runEvents]
      rw [ih ((storeBBnode s pr g q c' b).1) p c hKrest]
      by_cases hb : b = 0
      · rw [storeBBnode_eq_zero s pr g q c' hb]
        subst hb
        constructor
        · rintro (⟨b', hb', hmem⟩ | ⟨hsome, hno⟩)
          · exact Or.inl ⟨b', hb', List.mem_cons.mpr (Or.inr hmem)⟩
          · refine Or.inr ⟨hsome, ?_⟩
            intro e' he' hcon
            rcases List.mem_cons.mp he' with heq | hmem'
            · rw [heq] at hcon
              exact hcon.2 rfl
            · exact hno e' hmem' hcon
        · rintro (⟨b', hb', hmem⟩ | ⟨hsome, hno⟩)
          · rcases List.mem_cons.mp hmem with heq | hmem'
            · exfalso
              apply hb'
              injection heq with _ h2
              injection h2 with _ h3
            · exact Or.inl ⟨b', hb', hmem'⟩
          · exact Or.inr ⟨hsome, fun e' he' =>
              hno e' (List.mem_cons.mpr (Or.inr he'))⟩
      · rw [storeBBnode_ne_zero s pr g q c' hb]
        by_cases hpq : p = q
        · subst hpq
          have hnorest : ∀ c₀ b₀, b₀ ≠ 0 → (p, c₀, b₀) ∉ rest := by
            intro c₀ b₀ hb₀ hc₀
            apply hKhead
            refine List.mem_map.mpr ⟨(p, c₀, b₀), hc₀, ?_⟩
            simp [eventKey, hb, hb₀]
          simp only [PyDict.get_set_same]
          constructor
          · rintro (⟨b', hb', hmem⟩ | ⟨hsome, _⟩)
            · exact absurd hmem (hnorest c b' hb')
            · left
              injection hsome with h
              rw [h]
              exact ⟨b, hb, List.mem_cons_self _ _⟩
          · rintro (⟨b', hb', hmem⟩ | ⟨_, hno⟩)
            · rcases List.mem_cons.mp hmem with heq | hmem'
              · injection heq with _ h2
                injection h2 with h2 h3
                right
                refine ⟨by rw [h2], ?_⟩
                intro e' he' hcon
                obtain ⟨e1, e2, e3⟩ := e'
                obtain ⟨hc1, hc2⟩ := hcon
                simp only at hc1 hc2
                subst hc1
                exact (hnorest e2 e3 hc2) he'
              · exact absurd hmem' (hnorest c b' hb')
            · exact absurd ⟨rfl, hb⟩ (hno (p, c', b) (List.mem_cons_self _ _))
        · simp only [PyDict.get_set_other _ _ _ _ hpq]
          constructor
          · rintro (⟨b', hb', hmem⟩ | ⟨hsome, hno⟩)
            · exact Or.inl ⟨b', hb', List.mem_cons.mpr (Or.inr hmem)⟩
            · refine Or.inr ⟨hsome, ?_⟩
              intro e' he' hcon
              rcases List.mem_cons.mp he' with heq | hmem'
              · rw [heq] at hcon
                exact hpq hcon.1.symm
              · exact hno e' hmem' hcon
          · rintro (⟨b', hb', hmem⟩ | ⟨hsome, hno⟩)
            · rcases List.mem_cons.mp hmem with heq | hmem'
              · injection heq with h1 _
                exact absurd h1 hpq
              · exact Or.inl ⟨b', hb', hmem'⟩
            · exact Or.inr ⟨hsome, fun e' he' =>
                hno e' (List.mem_cons.mpr (Or.inr he'))⟩

/-- Unconditionally, every `left` edge after a run either comes from a
left-branch event or was present at the start. -/
theorem runEvents_left_origin (pr : Problem) (g : Graph) :
    ∀ events s p c, (runEvents pr g events s).left.get p = some c →
      (p, c, (0 : Int)) ∈ events ∨ s.left.get p = some c := by
  intro events
  induction events with
  | nil =>
      intro s p c h
      exact Or.inr h
  | cons e rest ih =>
      intro s p c h
      obtain ⟨q, c', b⟩ := e
      rw [runEvents] at h
      rcases ih _ p c h with hmem | hstart
      · exact Or.inl (List.mem_cons.mpr (Or.inr hmem))
      · by_cases hb : b = 0
        · rw [storeBBnode_eq_zero s pr g q c' hb] at hstart
          subst hb
          by_cases hpq : p = q
          · subst hpq
            rw [PyDict.get_set_same] at hstart
            injection hstart with h'
            left
            rw [h']
            exact List.mem_cons_self _ _
          · rw [PyDict.get_set_other _ _ _ _ hpq] at hstart
            exact Or.inr hstart
        · rw [storeBBnode_ne_zero s pr g q c' hb] at hstart
          exact Or.inr hstart

/-- Unconditionally, every `right` edge after a run either comes from a
right-branch event or was present at the start. -/
theorem runEvents_right_origin (pr : Problem) (g : Graph) :
    ∀ events s p c, (runEvents pr g events s).right.get p = some c →
      (∃ b, b ≠ 0 ∧ (p, c, b) ∈ events) ∨ s.right.get p = some c := by
  intro events
  induction events with
  | nil =>
      intro s p c h
      exact Or.inr h
  | cons e rest ih =>
      intro s p c h
      obtain ⟨q, c', b⟩ := e
      rw [runEvents] at h
      rcases ih _ p c h with ⟨b', hb', hmem⟩ | hstart
      · exact Or.inl ⟨b', hb', List.mem_cons.mpr (Or.inr hmem)⟩
      · by_cases hb : b = 0
        · rw [storeBBnode_eq_zero s pr g q c' hb] at hstart
          exact Or.inr hstart
        · rw [storeBBnode_ne_zero s pr g q c' hb] at hstart
          by_cases hpq : p = q
          · subst hpq
            rw [PyDict.get_set_same] at hstart
            injection hstart with h'
            left
            exact ⟨b, hb, by rw [h']; exact List.mem_cons_self _ _⟩
          · rw [PyDict.get_set_other _ _ _ _ hpq] at hstart
            exact Or.inr hstart

/-- The `nodes` entry written for a newnode survives all later callback
invocations whose newnodes differ from it. -/
theorem runEvents_nodes_frame (pr : Problem) (g : Graph) :
    ∀ events s c, (∀ e ∈ events, e.2.1 ≠ c) →
      (runEvents pr g events s).nodes.get c = s.nodes.get c := by
  intro events
  induction events with
  | nil =>
      intro s c _
      rfl
  | cons e rest ih =>
      intro s c hne
      obtain ⟨q, c', b⟩ := e
      have hc' : c' ≠ c := hne (q, c', b) (List.mem_cons_self _ _)
      rw [runEvents, ih _ c (fun e' he' => hne e' (List.mem_cons.mpr (Or.inr he')))]
      have hnodes : ((storeBBnode s pr g q c' b).1).nodes =
          s.nodes.set c' (s.nodes.size + 1) := by
        by_cases hb : b = 0
        · rw [storeBBnode_eq_zero s pr g q c' hb]
        · rw [storeBBnode_ne_zero s pr g q c' hb]
      rw [hnodes, PyDict.get_set_other _ _ _ _ (Ne.symm hc')]

/-! ## Freshness of reported newnodes implies acyclicity -/

/-- The identifiers seen while replaying the events: the root `1` (in the
initial accumulator), then every event's parent and newnode in order. -/
def buildSeen : List Nat → List BBEvent → List Nat
  | seen, [] => seen
  | seen, (p, c, _) :: rest =>
      buildSeen ((if seen.contains p then seen else seen ++ [p]) ++ [c]) rest

/-- `freshEvents seen events = true` iff each event's newnode is distinct
from every identifier seen before it (the accumulator, all earlier parents
and newnodes) and from the parent it is attached to. -/
def freshEvents : List Nat → List BBEvent → Bool
  | _, [] => true
  | seen, (p, c, _) :: rest =>
      !(seen.contains c) && !(c == p) &&
        freshEvents ((if seen.contains p then seen else seen ++ [p]) ++ [c]) rest

/-- The index of `x` in a list (its length when absent). -/
def posIn (x : Nat) : List Nat → Nat
  | [] => 0
  | y :: rest => if y = x then 0 else posIn x rest + 1

theorem posIn_le_length (x : Nat) : ∀ l : List Nat, posIn x l ≤ l.length := by
  intro l
  induction l with
  | nil => simp [posIn]
  | cons y rest ih =>
      by_cases h : y = x
      · simp [posIn, h]
      · simp only [posIn, if_neg h, List.length_cons]
        omega

theorem posIn_lt_length {x : Nat} : ∀ {l : List Nat}, x ∈ l →
    posIn x l < l.length := by
  intro l
  induction l with
  | nil => intro h; cases h
  | cons y rest ih =>
      intro h
      by_cases hy : y = x
      · simp [posIn, hy]
      · have hx : x ∈ rest := by
          rcases List.mem_cons.mp h with h' | h'
          · exact absurd h'.symm hy
          · exact h'
        simp only [posIn, if_neg hy, List.length_cons]
        exact Nat.succ_lt_succ (ih hx)

theorem posIn_append_of_mem {x : Nat} : ∀ {l : List Nat} (t : List Nat),
    x ∈ l → posIn x (l ++ t) = posIn x l := by
  intro l
  induction l with
  | nil => intro t h; cases h
  | cons y rest ih =>
      intro t h
      by_cases hy : y = x
      · simp [posIn, hy]
      · have hx : x ∈ rest := by
          rcases List.mem_cons.mp h with h' | h'
          · exact absurd h'.symm hy
          · exact h'
        simp only [List.cons_append, posIn, if_neg hy]
        show posIn x (rest ++ t) + 1 = posIn x rest + 1
        rw [ih t hx]

theorem posIn_append_of_not_mem {x : Nat} : ∀ {l : List Nat} (t : List Nat),
    x ∉ l → posIn x (l ++ t) = l.length + posIn x t := by
  intro l
  induction l with
  | nil => intro t _; simp
  | cons y rest ih =>
      intro t h
      have hy : y ≠ x := fun hy => h (List.mem_cons.mpr (Or.inl hy.symm))
      have hx : x ∉ rest := fun hx => h (List.mem_cons.mpr (Or.inr hx))
      simp only [List.cons_append, posIn, if_neg hy, List.length_cons]
      show posIn x (rest ++ t) + 1 = rest.length + 1 + posIn x t
      rw [ih t hx]
      omega

/-- `buildSeen` only appends to its accumulator. -/
theorem buildSeen_prefix : ∀ (events : List BBEvent) (seen : List Nat),
    ∃ t, buildSeen seen events = seen ++ t := by
  intro events
  induction events with
  | nil =>
      intro seen
      exact ⟨[], by simp [buildSeen]⟩
  | cons e rest ih =>
      intro seen
      obtain ⟨q, c, b⟩ := e
      rw [buildSeen]
      obtain ⟨t, ht⟩ := ih ((if seen.contains q then seen else seen ++ [q]) ++ [c])
      by_cases hq : seen.contains q
      · rw [if_pos hq] at ht
        refine ⟨[c] ++ t, ?_⟩
        rw [if_pos hq, ht, List.append_assoc]
      · rw [if_neg hq] at ht
        refine ⟨[q] ++ [c] ++ t, ?_⟩
        rw [if_neg hq, ht]
        simp [List.append_assoc]

/-- Under freshness, every reported event's parent strictly precedes its
newnode in the seen order, and both occur in it. -/
theorem buildSeen_event_lt :
    ∀ (events : List BBEvent) (seen : List Nat),
      freshEvents seen events = true →
      ∀ p c b, (p, c, b) ∈ events →
        p ∈ buildSeen seen events ∧ c ∈ buildSeen seen events ∧
          posIn p (buildSeen seen events) < posIn c (buildSeen seen events) := by
  intro events
  induction events with
  | nil =>
      intro seen _ p c b h
      cases h
  | cons e rest ih =>
      intro seen hf p c b hmem
      obtain ⟨q, c', b'⟩ := e
      rw [freshEvents] at hf
      simp only [Bool.and_eq_true, Bool.not_eq_true'] at hf
      obtain ⟨⟨hcseen, hcq⟩, hfrest⟩ := hf
      have hcseen' : c' ∉ seen := by simpa using hcseen
      have hcq' : c' ≠ q := by simpa using hcq
      set seen' : List Nat :=
        (if seen.contains q then seen else seen ++ [q]) ++ [c'] with hseen'
      have hqmem : q ∈ (if seen.contains q then seen else seen ++ [q]) := by
        by_cases hq : seen.contains q
        · rw [if_pos hq]
          simpa using hq
        · rw [if_neg hq]
          simp
      have hcnot : c' ∉ (if seen.contains q then seen else seen ++ [q]) := by
        by_cases hq : seen.contains q
        · rw [if_pos hq]
          exact hcseen'
        · rw [if_neg hq]
          intro h
          rcases List.mem_append.mp h with h' | h'
          · exact hcseen' h'
          · exact hcq' (by simpa using h')
      have hqmem' : q ∈ seen' := by
        rw [hseen']
        exact List.mem_append.mpr (Or.inl hqmem)
      have hcmem' : c' ∈ seen' := by
        rw [hseen']
        simp
      have hlt : posIn q seen' < posIn c' seen' := by
        rw [hseen']
        rw [posIn_append_of_mem [c'] hqmem, posIn_append_of_not_mem [c'] hcnot]
        have h1 := posIn_lt_length hqmem
        have h2 : posIn c' [c'] = 0 := by simp [posIn]
        rw [h2]
        omega
      rw [buildSeen]
      rcases List.mem_cons.mp hmem with heq | hmem'
      · -- the head event itself
        injection heq with h1 h2
        injection h2 with h2 h3
        subst h1
        subst h2
        obtain ⟨t, ht⟩ := buildSeen_prefix rest seen'
        rw [← hseen', ht]
        refine ⟨List.mem_append.mpr (Or.inl hqmem'),
          List.mem_append.mpr (Or.inl hcmem'), ?_⟩
        rw [posIn_append_of_mem t hqmem', posIn_append_of_mem t hcmem']
        exact hlt
      · rw [← hseen']
        exact ih seen' hfrest p c b hmem'

/-- A freshly-reported event stream yields an acyclic mapping: the order of
first appearance is a rank witness. -/
theorem fresh_ranked (pr : Problem) (g : Graph) (events : List BBEvent)
    (hf : freshEvents [1] events = true) :
    ∃ rk B, RankedBy (runEvents pr g events initState).left
        (runEvents pr g events initState).right rk B := by
  refine ⟨fun n => posIn n (buildSeen [1] events),
    (buildSeen [1] events).length + 1, ?_, ?_⟩
  · intro p c he
    rcases he with hl | hrr
    · rcases runEvents_left_origin pr g events initState p c hl with hmem | hstart
      · exact (buildSeen_event_lt events [1] hf p c 0 hmem).2.2
      · simp [initState, PyDict.get] at hstart
    · rcases runEvents_right_origin pr g events initState p c hrr with
        ⟨b, hb, hmem⟩ | hstart
      · exact (buildSeen_event_lt events [1] hf p c b hmem).2.2
      · simp [initState, PyDict.get] at hstart
  · intro n
    show posIn n (buildSeen [1] events) < (buildSeen [1] events).length + 1
    have := posIn_le_length n (buildSeen [1] events)
    omega

/-- Reading a singleton dictionary. -/
theorem pydict_get_singleton (k v p c : Nat) :
    PyDict.get [(k, v)] p = some c ↔ p = k ∧ c = v := by
  constructor
  · intro h
    rw [PyDict.get] at h
    by_cases hk : k = p
    · rw [if_pos hk] at h
      injection h with h'
      exact ⟨hk.symm, h'.symm⟩
    · rw [if_neg hk] at h
      simp [PyDict.get] at h
  · rintro ⟨rfl, rfl⟩
    simp [PyDict.get]

/-- Extend a chain by one edge at its end. -/
theorem ReachLen.snoc {left right : PyDict Nat} {n m c k : Nat}
    (h : ReachLen left right n m k) (he : EdgeTo left right m c) :
    ReachLen left right n c (k + 1) := by
  induction h with
  | refl n =>
      rcases he with h' | h'
      · exact ReachLen.stepL h' (ReachLen.refl c)
      · exact ReachLen.stepR h' (ReachLen.refl c)
  | stepL hl _ ih => exact ReachLen.stepL hl (ih he)
  | stepR hrr _ ih => exact ReachLen.stepR hrr (ih he)

/-- Extend reachability by one edge at its end. -/
theorem reach_snoc {left right : PyDict Nat} {n m c : Nat}
    (h : Reach left right n m) (he : EdgeTo left right m c) :
    Reach left right n c := by
  obtain ⟨k, hk⟩ := h
  exact ⟨k + 1, hk.snoc he⟩

/-- `storeBBnode` always returns Python's `None`. -/
theorem storeBBnode_snd (s : ProgState) (pr : Problem) (g : Graph)
    (p c : Nat) (b : Int) : (storeBBnode s pr g p c b).2 = none := by
  rw [storeBBnode]
  split <;> rfl

/-! ## Claims -/

/-- C1 (counterexample): it is not the case that after an arbitrary
sequence of `storeBBnode` calls the dictionaries `left` and `right`
contain one edge per reported `(parent, newnode, branch)` event: when the
same `(parent, branch)` key is reported twice, the later event overwrites
the earlier edge.  Concretely, after the events `(1, 2, 0)` and
`(1, 3, 0)` the dictionary `left` maps `1` to `3`, so the event
`(1, 2, 0)` has no edge. -/
theorem C1_counterexample :
    ¬ (∀ events : List BBEvent, ∀ e ∈ events,
        (e.2.2 = 0 →
          (runEvents initState.prob Graph.empty events initState).left.get e.1 =
            some e.2.1) ∧
        (e.2.2 ≠ 0 →
          (runEvents initState.prob Graph.empty events initState).right.get e.1 =
            some e.2.1)) := by
  intro h
  have h1 := (h [(1, 2, 0), (1, 3, 0)] (1, 2, 0) (by simp)).1 rfl
  have h2 : (runEvents initState.prob Graph.empty [(1, 2, 0), (1, 3, 0)]
      initState).left.get 1 = some 3 := by decide
  rw [h2] at h1
  simp at h1

/-- C1 (amended): each `storeBBnode` call stores `left[parent] = newnode`
when `branch == 0` and `right[parent] = newnode` otherwise, changing no
other key of `left` or `right` and leaving the other dictionary unchanged;
and for any event sequence in which each `(parent, branch)` key is
reported at most once, the dictionaries built from the notebook's initial
empty state contain exactly one edge per reported event, forming an
explicit binary branch-and-bound tree. -/
theorem C1_amended :
    (∀ (s : ProgState) (pr : Problem) (g : Graph) (p c : Nat) (b : Int),
      (b = 0 →
        ((storeBBnode s pr g p c b).1).left.get p = some c ∧
        ((storeBBnode s pr g p c b).1).right = s.right ∧
        ∀ q, q ≠ p → ((storeBBnode s pr g p c b).1).left.get q = s.left.get q) ∧
      (b ≠ 0 →
        ((storeBBnode s pr g p c b).1).right.get p = some c ∧
        ((storeBBnode s pr g p c b).1).left = s.left ∧
        ∀ q, q ≠ p →
          ((storeBBnode s pr g p c b).1).right.get q = s.right.get q)) ∧
    (∀ events : List BBEvent, KeysUnique events →
      (∀ p c,
        (runEvents initState.prob Graph.empty events initState).left.get p =
            some c ↔ (p, c, (0 : Int)) ∈ events) ∧
      (∀ p c,
        (runEvents initState.prob Graph.empty events initState).right.get p =
            some c ↔ ∃ b, b ≠ 0 ∧ (p, c, b) ∈ events)) := by
  constructor
  · intro s pr g p c b
    constructor
    · intro hb
      rw [storeBBnode_eq_zero s pr g p c hb]
      exact ⟨PyDict.get_set_same _ _ _, rfl,
        fun q hq => PyDict.get_set_other _ _ _ _ hq⟩
    · intro hb
      rw [storeBBnode_ne_zero s pr g p c hb]
      exact ⟨PyDict.get_set_same _ _ _, rfl,
        fun q hq => PyDict.get_set_other _ _ _ _ hq⟩
  · intro events hK
    constructor
    · intro p c
      rw [runEvents_left_spec initState.prob Graph.empty events initState p c hK]
      constructor
      · rintro (hmem | ⟨hsome, _⟩)
        · exact hmem
        · simp [initState, PyDict.get] at hsome
      · exact Or.inl
    · intro p c
      rw [runEvents_right_spec initState.prob Graph.empty events initState p c hK]
      constructor
      · rintro (hmem | ⟨hsome, _⟩)
        · exact hmem
        · simp [initState, PyDict.get] at hsome
      · exact Or.inl

/-- C1 (witness): the amended statement applied to the concrete key-unique
event sequence `(1,2,0), (1,3,1), (2,4,0)`. -/
theorem C1_witness :
    KeysUnique [((1 : Nat), (2 : Nat), (0 : Int)), (1, 3, 1), (2, 4, 0)] ∧
    ((runEvents initState.prob Graph.empty
        [((1 : Nat), (2 : Nat), (0 : Int)), (1, 3, 1), (2, 4, 0)]
        initState).left.get 1 = some 2 ↔
      ((1 : Nat), (2 : Nat), (0 : Int)) ∈
        [((1 : Nat), (2 : Nat), (0 : Int)), (1, 3, 1), (2, 4, 0)]) :=
  ⟨by decide,
    (C1_amended.2 [((1 : Nat), (2 : Nat), (0 : Int)), (1, 3, 1), (2, 4, 0)]
      (by decide)).1 1 2⟩

/-- C4 (counterexample): not every notebook executes a solver invocation
after model construction and before solution output —
`load_performance.ipynb` (src/unnamed/part_004) never invokes the solver:
both of its `p.optimize()` calls are commented out. -/
theorem C4_counterexample :
    ¬ (∀ s ∈ allScripts, scriptOrdered s = true) := by
  intro h
  have h1 := h loadPerformanceScript (by decide)
  have h2 : scriptOrdered loadPerformanceScript = false := by decide
  rw [h1] at h2
  cases h2

/-- C4 (amended): every notebook except `load_performance.ipynb`
(src/unnamed/part_004) actually executes the solver invocation after model
construction and before any printing or plotting of a solution;
`load_performance.ipynb` constructs two models and prints only build
timings, its solver invocations being commented out. -/
theorem C4_amended :
    ∀ s ∈ allScripts, s = loadPerformanceScript ∨ scriptOrdered s = true := by
  decide

/-- C4 (witness): the amended statement applied to the sudoku notebook. -/
theorem C4_witness :
    sudokuScript ∈ allScripts ∧
      (sudokuScript = loadPerformanceScript ∨ scriptOrdered sudokuScript = true) :=
  ⟨by decide, C4_amended sudokuScript (by decide)⟩

/-- C5: no notebook catches, retries, or translates errors: every script
is free of handlers, and if it invokes the solver at all, running it
against a failing solver ends in exactly the solver's error. -/
theorem C5_no_error_handling :
    ∀ s ∈ allScripts, handlerFreeScript s = true ∧
      (scriptHasInvoke s = true →
        ∀ e k, runScript (fun _ => some e) s k = Except.error e) := by
  have hall : ∀ s ∈ allScripts, handlerFreeScript s = true := by decide
  intro s hs
  exact ⟨hall s hs, fun hi e k => runScript_allfail e s (hall s hs) hi k⟩

/-- C5 (witness): the statement applied to `write_read.ipynb` with solver
error code `7`. -/
theorem C5_witness :
    writeReadScript ∈ allScripts ∧
      handlerFreeScript writeReadScript = true ∧
      scriptHasInvoke writeReadScript = true ∧
      runScript (fun _ => some 7) writeReadScript 0 = Except.error 7 := by
  refine ⟨by decide, ?_, by decide, ?_⟩
  · exact (C5_no_error_handling writeReadScript (by decide)).1
  · exact (C5_no_error_handling writeReadScript (by decide)).2 (by decide) 7 0

/-- C6: the only callback registered by repository code is `storeBBnode`
in `callback_newnode.ipynb`, and it only logs events: it returns `None`
and mutates only the bookkeeping dictionaries `nodes`, `left`, `right` —
the graph `T`, the problem object with its controls, `card_subtree` and
`pos` are left unchanged. -/
theorem C6_callback :
    (∀ s ∈ allScripts, scriptRegistersCb s = true → s = callbackNewnodeScript) ∧
    (∀ a ∈ scriptAtoms callbackNewnodeScript, a.isRegisterCb = true →
      a = Atom.registerCallback "storeBBnode") ∧
    (∀ (s : ProgState) (pr : Problem) (g : Graph) (p c : Nat) (b : Int),
      (storeBBnode s pr g p c b).2 = none ∧
      ((storeBBnode s pr g p c b).1).T = s.T ∧
      ((storeBBnode s pr g p c b).1).prob = s.prob ∧
      ((storeBBnode s pr g p c b).1).card_subtree = s.card_subtree ∧
      ((storeBBnode s pr g p c b).1).pos = s.pos) := by
  refine ⟨by decide, by decide, ?_⟩
  intro s pr g p c b
  refine ⟨storeBBnode_snd s pr g p c b, ?_⟩
  by_cases hb : b = 0
  · rw [storeBBnode_eq_zero s pr g p c hb]
    exact ⟨rfl, rfl, rfl, rfl⟩
  · rw [storeBBnode_ne_zero s pr g p c hb]
    exact ⟨rfl, rfl, rfl, rfl⟩

/-- C6 (witness): the statement applied to `callback_newnode.ipynb`'s own
registration and a concrete callback invocation. -/
theorem C6_witness :
    callbackNewnodeScript ∈ allScripts ∧
      scriptRegistersCb callbackNewnodeScript = true ∧
      callbackNewnodeScript = callbackNewnodeScript ∧
      (storeBBnode initState initState.prob Graph.empty 1 2 0).2 = none :=
  ⟨by decide, by decide,
    C6_callback.1 callbackNewnodeScript (by decide) (by decide),
    (C6_callback.2.2 initState initState.prob Graph.empty 1 2 0).1⟩

/-- C9 (counterexample): it is not the case that no notebook maintains its
own state persisting across callback invocations — a single `storeBBnode`
invocation already changes the notebook-owned program state (it records
the new node in `nodes`), and that state survives the call. -/
theorem C9_counterexample :
    ¬ (∀ (s : ProgState) (pr : Problem) (g : Graph) (p c : Nat) (b : Int),
        (storeBBnode s pr g p c b).1 = s) := by
  intro h
  have h1 := h initState initState.prob Graph.empty 1 2 0
  have h2 : ((storeBBnode initState initState.prob Graph.empty 1 2 0).1).nodes.get 2 =
      some 2 := by decide
  rw [h1] at h2
  have h3 : initState.nodes.get 2 = none := by decide
  rw [h3] at h2
  cases h2

/-- C9 (amended): notebooks do maintain notebook-owned state that
persists across callback invocations: `callback_newnode.ipynb`'s
bookkeeping dictionaries (`nodes`, `left`, `right`, alongside `T`,
`card_subtree`, `pos`) accumulate the branch-and-bound events — the
`nodes` entry recorded for a newnode by one `storeBBnode` invocation is
still present after any sequence of later invocations whose newnodes
differ from it. -/
theorem C9_amended :
    ∀ (pr : Problem) (g : Graph) (p c : Nat) (b : Int) (rest : List BBEvent)
      (s : ProgState), (∀ e ∈ rest, e.2.1 ≠ c) →
      (runEvents pr g ((p, c, b) :: rest) s).nodes.get c =
        some (s.nodes.size + 1) := by
  intro pr g p c b rest s hfresh
  rw [runEvents, runEvents_nodes_frame pr g rest _ c hfresh]
  have hnodes : ((storeBBnode s pr g p c b).1).nodes =
      s.nodes.set c (s.nodes.size + 1) := by
    by_cases hb : b = 0
    · rw [storeBBnode_eq_zero s pr g p c hb]
    · rw [storeBBnode_ne_zero s pr g p c hb]
  rw [hnodes, PyDict.get_set_same]

/-- C9 (witness): the amended statement applied to the event `(1, 2, 0)`
followed by the invocation `(2, 3, 1)`, from the notebook's initial
state. -/
theorem C9_witness :
    (∀ e ∈ [((2 : Nat), (3 : Nat), (1 : Int))], e.2.1 ≠ 2) ∧
      (runEvents initState.prob Graph.empty
        [((1 : Nat), (2 : Nat), (0 : Int)), (2, 3, 1)] initState).nodes.get 2 =
        some (initState.nodes.size + 1) :=
  ⟨by decide,
    C9_amended initState.prob Graph.empty 1 2 0 [(2, 3, 1)] initState (by decide)⟩

/-- C10: the notebooks are single-threaded scripts: no script step creates
a thread or a process, and the only assignment to the `threads` solver
control anywhere is of an integer literal. -/
theorem C10_concurrency :
    ∀ s ∈ allScripts, ∀ a ∈ scriptAtoms s, a.concOK = true := by
  decide

/-- C10 (witness): the statement applied to `callback_newnode.ipynb`'s
`p.controls.threads = 1` assignment. -/
theorem C10_witness :
    callbackNewnodeScript ∈ allScripts ∧
      Atom.setControl Ctrl.threads (CtrlVal.intVal 1) ∈
        scriptAtoms callbackNewnodeScript ∧
      (Atom.setControl Ctrl.threads (CtrlVal.intVal 1)).concOK = true :=
  ⟨by decide, by decide,
    C10_concurrency callbackNewnodeScript (by decide) _ (by decide)⟩

/-- A concrete ranked two-leaf tree: `left = {1: 2}`, `right = {1: 3}`. -/
theorem rankedBy_example :
    RankedBy [(1, 2)] [(1, 3)] (fun n => if n = 1 then 0 else 1) 2 := by
  constructor
  · intro p c he
    rcases he with h | h
    · rw [pydict_get_singleton] at h
      obtain ⟨rfl, rfl⟩ := h
      decide
    · rw [pydict_get_singleton] at h
      obtain ⟨rfl, rfl⟩ := h
      decide
  · intro nn
    dsimp only
    split <;> omega

/-- C3: on an acyclic mapping, after `postorder_count(n)` the dictionary
`card_subtree` maps every node `m` of the subtree rooted at `n` to the
exact cardinality of the subtree rooted at `m` — one plus the entries of
its left and right children when present — which is at least `1`, with
equality exactly when `m` is a leaf; entries outside the subtree are
unchanged. -/
theorem C3_postorder (left right : PyDict Nat) (rk : Nat → Nat) (B : Nat)
    (hr : RankedBy left right rk B) (fuel n : Nat) (hfuel : B ≤ fuel + rk n)
    (cs0 : PyDict Nat) :
    ∃ cs', postorder_count left right fuel n cs0 = some cs' ∧
      (∀ m, ¬ Reach left right n m → cs'.get m = cs0.get m) ∧
      ∀ m, Reach left right n m →
        ∃ c, cs'.get m = some c ∧
          c = 1 +
              (match left.get m with
               | some l => (cs'.get l).getD 0
               | none => 0) +
              (match right.get m with
               | some r' => (cs'.get r').getD 0
               | none => 0) ∧
          1 ≤ c ∧
          (c = 1 ↔ left.get m = none ∧ right.get m = none) := by
  have hB0 : 0 < B := lt_of_le_of_lt (Nat.zero_le _) (hr.2 n)
  obtain ⟨cs', hcs', hRe, hF⟩ := postorder_count_spec hr fuel n cs0 hfuel
  refine ⟨cs', hcs', hF, ?_⟩
  intro m hm
  have hid := szF_eq_children hr m
  refine ⟨szF left right B m, hRe m hm, ?_, szF_pos left right hB0 m, ?_⟩
  · rcases hL : left.get m with _ | l <;> rcases hR : right.get m with _ | r' <;>
      rw [hL, hR] at hid <;> dsimp only at hid ⊢
    · omega
    · have hcr := hRe r' (reach_snoc hm (Or.inr hR))
      rw [hcr, Option.getD_some]
      omega
    · have hcl := hRe l (reach_snoc hm (Or.inl hL))
      rw [hcl, Option.getD_some]
      omega
    · have hcl := hRe l (reach_snoc hm (Or.inl hL))
      have hcr := hRe r' (reach_snoc hm (Or.inr hR))
      rw [hcl, hcr, Option.getD_some, Option.getD_some]
      omega
  · constructor
    · intro hc1
      rcases hL : left.get m with _ | l
      · rcases hR : right.get m with _ | r'
        · exact ⟨rfl, rfl⟩
        · exfalso
          rw [hL, hR] at hid
          dsimp only at hid
          have := szF_pos left right hB0 r'
          omega
      · exfalso
        rw [hL] at hid
        have := szF_pos left right hB0 l
        rcases hR : right.get m with _ | r' <;> rw [hR] at hid <;>
          dsimp only at hid
        · omega
        · have := szF_pos left right hB0 r'
          omega
    · rintro ⟨hL, hR⟩
      rw [hL, hR] at hid
      dsimp only at hid
      omega

/-- C3 (witness): the statement applied to the two-leaf tree
`left = {1: 2}`, `right = {1: 3}` with fuel `2`. -/
theorem C3_witness :
    RankedBy [(1, 2)] [(1, 3)] (fun n => if n = 1 then 0 else 1) 2 ∧
    ∃ cs', postorder_count [(1, 2)] [(1, 3)] 2 1 [] = some cs' ∧
      (∀ m, ¬ Reach [(1, 2)] [(1, 3)] 1 m → cs'.get m = PyDict.get [] m) ∧
      ∀ m, Reach [(1, 2)] [(1, 3)] 1 m →
        ∃ c, cs'.get m = some c ∧
          c = 1 +
              (match PyDict.get [(1, 2)] m with
               | some l => (cs'.get l).getD 0
               | none => 0) +
              (match PyDict.get [(1, 3)] m with
               | some r' => (cs'.get r').getD 0
               | none => 0) ∧
          1 ≤ c ∧
          (c = 1 ↔ PyDict.get [(1, 2)] m = none ∧ PyDict.get [(1, 3)] m = none) :=
  ⟨rankedBy_example,
    C3_postorder [(1, 2)] [(1, 3)] _ 2 rankedBy_example 2 1 (by decide) []⟩

/-- C8: `postorder_count` and `setpos` terminate (with defined `dict`
accesses throughout) on every finite acyclic `left`/`right` mapping, and
the mapping produced by a sequence of `storeBBnode` calls is acyclic
whenever every reported newnode is distinct from all identifiers seen
before it (the root, earlier parents and newnodes, and its own parent). -/
theorem C8_termination :
    (∀ (left right : PyDict Nat) (rk : Nat → Nat) (B : Nat),
      RankedBy left right rk B → ∀ fuel, B ≤ fuel →
        ∃ cs, postorder_count left right fuel 1 [] = some cs ∧
          ∀ T d, (setpos left right cs fuel T 1 (1/2) 1 d).isSome = true) ∧
    (∀ (pr : Problem) (g : Graph) (events : List BBEvent),
      freshEvents [1] events = true →
      ∃ rk B, RankedBy (runEvents pr g events initState).left
          (runEvents pr g events initState).right rk B) := by
  constructor
  · intro left right rk B hr fuel hfuel
    have h1 : B ≤ fuel + rk 1 := le_trans hfuel (Nat.le_add_right _ _)
    obtain ⟨cs, hcs, hRe, _⟩ := postorder_count_spec hr fuel 1 [] h1
    refine ⟨cs, hcs, ?_⟩
    intro T d
    obtain ⟨T', hT', _⟩ := setpos_xrange hr fuel 1 T (1/2) 1 d h1 hRe
      (by norm_num) (by norm_num) (by norm_num)
    rw [hT']
    rfl
  · exact fresh_ranked

/-- C8 (witness): the statement applied to the two-leaf tree and to the
fresh event sequence `(1,2,0), (1,3,1)`. -/
theorem C8_witness :
    RankedBy [(1, 2)] [(1, 3)] (fun n => if n = 1 then 0 else 1) 2 ∧
    freshEvents [1] [((1 : Nat), (2 : Nat), (0 : Int)), (1, 3, 1)] = true ∧
    (∃ cs, postorder_count [(1, 2)] [(1, 3)] 2 1 [] = some cs ∧
      ∀ T d, (setpos [(1, 2)] [(1, 3)] cs 2 T 1 (1/2) 1 d).isSome = true) ∧
    ∃ rk B,
      RankedBy
        (runEvents initState.prob Graph.empty
          [((1 : Nat), (2 : Nat), (0 : Int)), (1, 3, 1)] initState).left
        (runEvents initState.prob Graph.empty
          [((1 : Nat), (2 : Nat), (0 : Int)), (1, 3, 1)] initState).right rk B :=
  ⟨rankedBy_example, by decide,
    C8_termination.1 [(1, 2)] [(1, 3)] _ 2 rankedBy_example 2 (le_refl 2),
    C8_termination.2 initState.prob Graph.empty
      [((1 : Nat), (2 : Nat), (0 : Int)), (1, 3, 1)] (by decide)⟩

/-- C2: for a finite acyclic `left`/`right` mapping that forms a binary
tree rooted at node `1` (each node has at most one parent and the root has
none), running `postorder_count(1)` and then `setpos(T, 1, 0.5, 1, 0)` on
the empty graph adds every node of the tree to `T` with a position
attribute and, for non-root nodes, an edge to its parent; the root is
placed at `(1/2, 1)` and every node at depth `k ≥ 1` has y-coordinate
`1 - k`. -/
theorem C2_layout (left right : PyDict Nat) (rk : Nat → Nat) (B : Nat)
    (hr : RankedBy left right rk B)
    (hup : ∀ p p' c, EdgeTo left right p c → EdgeTo left right p' c → p = p')
    (hroot1 : ∀ p, ¬ EdgeTo left right p 1)
    (fuel : Nat) (hfuel : B ≤ fuel)
    (cs : PyDict Nat) (hpc : postorder_count left right fuel 1 [] = some cs) :
    ∃ T', setpos left right cs fuel Graph.empty 1 (1/2) 1 0 = some T' ∧
      T'.posOf.get 1 = some (1/2, 1) ∧
      (∀ m, Reach left right 1 m → ∃ x y, T'.posOf.get m = some (x, y)) ∧
      (∀ m k, ReachLen left right 1 m k → 1 ≤ k →
        (∃ x, T'.posOf.get m = some (x, 1 - (k : ℚ))) ∧
        ∃ p, EdgeTo left right p m ∧ (p, m) ∈ T'.edges) := by
  have h1 : B ≤ fuel + rk 1 := le_trans hfuel (Nat.le_add_right _ _)
  obtain ⟨cs', hcs', hRe, _⟩ := postorder_count_spec hr fuel 1 [] h1
  rw [hpc] at hcs'
  injection hcs' with hcs'
  subst cs'
  obtain ⟨T', hT', hE, hP, hF, hRoot⟩ :=
    setpos_layout hr hup hroot1 fuel 1 Graph.empty (1/2) 1 0 h1 hRe
  refine ⟨T', hT', hRoot rfl, ?_, ?_⟩
  · intro m hm
    obtain ⟨k, hk⟩ := hm
    rcases Nat.eq_zero_or_pos k with rfl | hk1
    · have hm1 := reachlen_zero hk
      refine ⟨1/2, 1, ?_⟩
      rw [hm1]
      exact hRoot rfl
    · obtain ⟨⟨x, hx⟩, _⟩ := hP m k hk hk1
      exact ⟨x, _, hx⟩
  · intro m k hk hk1
    obtain ⟨⟨x, hx⟩, hedge⟩ := hP m k hk hk1
    refine ⟨⟨x, ?_⟩, hedge⟩
    rw [Nat.zero_add] at hx
    exact hx

/-- C2 (witness): the statement applied to the two-leaf tree
`left = {1: 2}`, `right = {1: 3}` with fuel `2` and the `card_subtree`
dictionary computed by `postorder_count`. -/
theorem C2_witness :
    RankedBy [(1, 2)] [(1, 3)] (fun n => if n = 1 then 0 else 1) 2 ∧
    postorder_count [(1, 2)] [(1, 3)] 2 1 [] = some [(2, 1), (3, 1), (1, 3)] ∧
    ∃ T', setpos [(1, 2)] [(1, 3)] [(2, 1), (3, 1), (1, 3)] 2 Graph.empty 1
        (1/2) 1 0 = some T' ∧
      T'.posOf.get 1 = some (1/2, 1) ∧
      (∀ m, Reach [(1, 2)] [(1, 3)] 1 m → ∃ x y, T'.posOf.get m = some (x, y)) ∧
      (∀ m k, ReachLen [(1, 2)] [(1, 3)] 1 m k → 1 ≤ k →
        (∃ x, T'.posOf.get m = some (x, 1 - (k : ℚ))) ∧
        ∃ p, EdgeTo [(1, 2)] [(1, 3)] p m ∧ (p, m) ∈ T'.edges) := by
  have hup : ∀ p p' c, EdgeTo [(1, 2)] [(1, 3)] p c →
      EdgeTo [(1, 2)] [(1, 3)] p' c → p = p' := by
    intro p p' c h h'
    have hp : p = 1 := by
      rcases h with h | h <;> rw [pydict_get_singleton] at h <;> exact h.1
    have hp' : p' = 1 := by
      rcases h' with h' | h' <;> rw [pydict_get_singleton] at h' <;> exact h'.1
    rw [hp, hp']
  have hroot1 : ∀ p, ¬ EdgeTo [(1, 2)] [(1, 3)] p 1 := by
    intro p h
    rcases h with h | h <;> rw [pydict_get_singleton] at h
    · exact absurd h.2 (by decide)
    · exact absurd h.2 (by decide)
  exact ⟨rankedBy_example, by decide,
    C2_layout [(1, 2)] [(1, 3)] _ 2 rankedBy_example hup hroot1 2 (le_refl 2)
      [(2, 1), (3, 1), (1, 3)] (by decide)⟩

/-- C7: starting from `setpos(T, 1, 0.5, 1, 0)` with correct subtree
cardinalities, every x-coordinate `setpos` assigns lies in `[0, 1]`; and
for any node with a child and a positive parent width, the child's width
is strictly positive and strictly smaller than the parent's, and the
child's horizontal band `[position - width/2, position + width/2]` is
contained in the parent's band. -/
theorem C7_band (left right : PyDict Nat) (rk : Nat → Nat) (B : Nat)
    (hr : RankedBy left right rk B) (cs : PyDict Nat)
    (hsz : ∀ m, Reach left right 1 m → cs.get m = some (szF left right B m))
    (fuel : Nat) (hfuel : B ≤ fuel) :
    (∃ T', setpos left right cs fuel Graph.empty 1 (1/2) 1 0 = some T' ∧
      ∀ m x y, T'.posOf.get m = some (x, y) → 0 ≤ x ∧ x ≤ 1) ∧
    (∀ w cl cn curpos : ℚ, 0 < w → 1 ≤ cl → cl + 1 ≤ cn →
      ((0 < lwidth w cl cn ∧ lwidth w cl cn < w) ∧
        curpos - w / 2 ≤
          lposition curpos w (lwidth w cl cn) - lwidth w cl cn / 2 ∧
        lposition curpos w (lwidth w cl cn) + lwidth w cl cn / 2 ≤
          curpos + w / 2) ∧
      ((0 < rwidth w cl cn ∧ rwidth w cl cn < w) ∧
        curpos - w / 2 ≤
          rposition curpos w (rwidth w cl cn) - rwidth w cl cn / 2 ∧
        rposition curpos w (rwidth w cl cn) + rwidth w cl cn / 2 ≤
          curpos + w / 2)) := by
  constructor
  · obtain ⟨T', hT', hprop⟩ := setpos_xrange hr fuel 1 Graph.empty (1/2) 1 0
      (le_trans hfuel (Nat.le_add_right _ _)) hsz (by norm_num) (by norm_num)
      (by norm_num)
    refine ⟨T', hT', ?_⟩
    intro m x y hm
    rcases hprop m x y hm with hold | hrange
    · simp [Graph.empty, PyDict.get] at hold
    · exact hrange
  · intro w cl cn curpos hw hcl hcn
    have hcl0 : (0 : ℚ) < cl := lt_of_lt_of_le one_pos hcl
    have hclcn : cl < cn := by linarith
    obtain ⟨hl0, hlw⟩ := lwidth_bounds hw hcl0 hclcn
    obtain ⟨hr0, hrw⟩ := rwidth_bounds hw hcl0 hclcn
    obtain ⟨hlb1, hlb2⟩ := lposition_band curpos w (lwidth w cl cn)
    obtain ⟨hrb1, hrb2⟩ := rposition_band curpos w (rwidth w cl cn)
    refine ⟨⟨⟨hl0, hlw⟩, ?_, ?_⟩, ⟨⟨hr0, hrw⟩, ?_, ?_⟩⟩
    · rw [hlb1]
    · rw [hlb2]
      linarith
    · rw [hrb2]
      linarith
    · rw [hrb1]

/-- C7 (witness): the statement applied to the two-leaf tree and, for the
band facts, to parent width `1`, child cardinality `1`, parent cardinality
`3` and position `1/2`. -/
theorem C7_witness :
    ∃ cs : PyDict Nat,
      (∀ m, Reach [(1, 2)] [(1, 3)] 1 m →
        cs.get m = some (szF [(1, 2)] [(1, 3)] 2 m)) ∧
      (∃ T', setpos [(1, 2)] [(1, 3)] cs 2 Graph.empty 1 (1/2) 1 0 = some T' ∧
        ∀ m x y, T'.posOf.get m = some (x, y) → 0 ≤ x ∧ x ≤ 1) ∧
      (((0 < lwidth 1 1 3 ∧ lwidth 1 1 3 < 1) ∧
        (1 : ℚ)/2 - 1 / 2 ≤
          lposition (1/2) 1 (lwidth 1 1 3) - lwidth 1 1 3 / 2 ∧
        lposition (1/2) 1 (lwidth 1 1 3) + lwidth 1 1 3 / 2 ≤
          (1 : ℚ)/2 + 1 / 2) ∧
      ((0 < rwidth 1 1 3 ∧ rwidth 1 1 3 < 1) ∧
        (1 : ℚ)/2 - 1 / 2 ≤
          rposition (1/2) 1 (rwidth 1 1 3) - rwidth 1 1 3 / 2 ∧
        rposition (1/2) 1 (rwidth 1 1 3) + rwidth 1 1 3 / 2 ≤
          (1 : ℚ)/2 + 1 / 2)) := by
  obtain ⟨cs', _, hRe, _⟩ :=
    postorder_count_spec rankedBy_example 2 1 [] (by decide)
  have h := C7_band [(1, 2)] [(1, 3)] _ 2 rankedBy_example cs' hRe 2 (le_refl 2)
  exact ⟨cs', hRe, h.1,
    h.2 1 1 3 (1/2) (by norm_num) (by norm_num) (by norm_num)⟩
